import Mathlib

/-!
Verification development for the table-assembly and slicing pipeline of
`src/publish.py` (covid-19-open-data publishing step).

Modelling conventions:
* a CSV cell value is a `String`; a missing/null cell is simply absent;
* a row is an association list `column name ↦ value`, looked up by first
  binding (`rowGet`); a table is an ordered column header plus a row list;
* the table-algebra primitives (`table_join`, `table_cross_product`,
  `table_sort`, ...) live in `lib/memory_efficient.py` / `lib/sql.py`,
  outside the sources given here; they are modelled from the spec's
  contracts (section 2 and 4.1 of the spec) and are marked as such;
* file-system effects of the orchestrator are modelled as an explicit
  event trace (`FsEvent`).
-/

/-- Lexical comparison of character lists by code point, used to model the
lexical line order of CSV files (Lean's builtin `String` order does not
reduce in the kernel, so we use our own executable order). -/
def charsLe : List Char → List Char → Bool
  | [], _ => true
  | _ :: _, [] => false
  | a :: as, b :: bs =>
    if a.toNat < b.toNat then true
    else if b.toNat < a.toNat then false
    else charsLe as bs

/-- Lexical (code point) order on strings. -/
def strLe (a b : String) : Bool := charsLe a.data b.data

theorem charsLe_cons_iff (a b : Char) (as bs : List Char) :
    charsLe (a :: as) (b :: bs) = true ↔
      a.toNat < b.toNat ∨ (a.toNat = b.toNat ∧ charsLe as bs = true) := by
  simp only [charsLe]
  rcases Nat.lt_trichotomy a.toNat b.toNat with h | h | h
  · simp [h]
  · simp [h, Nat.lt_irrefl]
  · have h1 : ¬ a.toNat < b.toNat := Nat.lt_asymm h
    have h2 : a.toNat ≠ b.toNat := Nat.ne_of_gt h
    simp [h1, h, h2]

theorem charsLe_trans : ∀ a b c : List Char,
    charsLe a b = true → charsLe b c = true → charsLe a c = true := by
  intro a
  induction a with
  | nil => intro b c _ _; rfl
  | cons x xs ih =>
    intro b c hab hbc
    cases b with
    | nil =>
      rw [show charsLe (x :: xs) [] = false from rfl] at hab
      exact Bool.noConfusion hab
    | cons y ys =>
      cases c with
      | nil =>
        rw [show charsLe (y :: ys) [] = false from rfl] at hbc
        exact Bool.noConfusion hbc
      | cons z zs =>
        rw [charsLe_cons_iff] at hab hbc ⊢
        rcases hab with h1 | ⟨h1, h1'⟩
        · rcases hbc with h2 | ⟨h2, _⟩
          · exact Or.inl (by omega)
          · exact Or.inl (by omega)
        · rcases hbc with h2 | ⟨h2, h2'⟩
          · exact Or.inl (by omega)
          · exact Or.inr ⟨by omega, ih ys zs h1' h2'⟩

theorem charsLe_total : ∀ a b : List Char, charsLe a b = true ∨ charsLe b a = true := by
  intro a
  induction a with
  | nil => intro b; left; rfl
  | cons x xs ih =>
    intro b
    cases b with
    | nil => right; rfl
    | cons y ys =>
      rw [charsLe_cons_iff, charsLe_cons_iff]
      rcases Nat.lt_trichotomy x.toNat y.toNat with h | h | h
      · left; exact Or.inl h
      · rcases ih ys with h' | h'
        · left; exact Or.inr ⟨h, h'⟩
        · right; exact Or.inr ⟨h.symm, h'⟩
      · right; exact Or.inl h

theorem strLe_trans (a b c : String) (hab : strLe a b = true) (hbc : strLe b c = true) :
    strLe a c = true := charsLe_trans _ _ _ hab hbc

theorem strLe_total (a b : String) : (strLe a b || strLe b a) = true := by
  rcases charsLe_total a.data b.data with h | h <;> simp [strLe, h]

/-- Insert `a` into `l` before the first element it compares at or below,
the insertion step of a plain insertion sort (structural recursion, so the
kernel can evaluate it on concrete data). -/
def ordInsert (le : α → α → Bool) (a : α) : List α → List α
  | [] => [a]
  | b :: l => if le a b then a :: b :: l else b :: ordInsert le a l

/-- Insertion sort by a boolean comparison; used to model all sorting done
by the external table primitives. -/
def sortLe (le : α → α → Bool) : List α → List α
  | [] => []
  | a :: l => ordInsert le a (sortLe le l)

theorem ordInsert_perm (le : α → α → Bool) (a : α) :
    ∀ l : List α, (ordInsert le a l).Perm (a :: l) := by
  intro l
  induction l with
  | nil => simp [ordInsert]
  | cons b l ih =>
    simp only [ordInsert]
    by_cases h : le a b = true
    · rw [if_pos h]
    · rw [if_neg h]
      exact (ih.cons b).trans (List.Perm.swap a b l)

theorem sortLe_perm (le : α → α → Bool) : ∀ l : List α, (sortLe le l).Perm l := by
  intro l
  induction l with
  | nil => simp [sortLe]
  | cons a l ih =>
    simp only [sortLe]
    exact (ordInsert_perm le a (sortLe le l)).trans (ih.cons a)

theorem pairwise_ordInsert (le : α → α → Bool)
    (htrans : ∀ a b c, le a b = true → le b c = true → le a c = true)
    (htotal : ∀ a b, (le a b || le b a) = true) (a : α) :
    ∀ l : List α, l.Pairwise (fun x y => le x y = true) →
      (ordInsert le a l).Pairwise (fun x y => le x y = true) := by
  intro l
  induction l with
  | nil => intro _; simp [ordInsert]
  | cons b l ih =>
    intro hp
    rcases List.pairwise_cons.mp hp with ⟨hb, hl⟩
    simp only [ordInsert]
    by_cases h : le a b = true
    · rw [if_pos h]
      apply List.pairwise_cons.mpr
      refine ⟨?_, hp⟩
      intro x hx
      rcases List.mem_cons.mp hx with rfl | hx
      · exact h
      · exact htrans a b x h (hb x hx)
    · rw [if_neg h]
      apply List.pairwise_cons.mpr
      refine ⟨?_, ih hl⟩
      intro x hx
      rcases List.mem_cons.mp ((ordInsert_perm le a l).mem_iff.mp hx) with hxa | hx'
      · rw [hxa]
        have h2 := htotal a b
        have h' : le a b = false := by simpa using h
        simpa [h'] using h2
      · exact hb x hx'

theorem pairwise_sortLe (le : α → α → Bool)
    (htrans : ∀ a b c, le a b = true → le b c = true → le a c = true)
    (htotal : ∀ a b, (le a b || le b a) = true) :
    ∀ l : List α, (sortLe le l).Pairwise (fun x y => le x y = true) := by
  intro l
  induction l with
  | nil => simp [sortLe]
  | cons a l ih =>
    simp only [sortLe]
    exact pairwise_ordInsert le htrans htotal a (sortLe le l) ih

/-- A CSV data row: association list from column name to (non-null) value.
A column that is null in this row is simply absent from the list. -/
abbrev Row := List (String × String)

/-- Value of column `c` in row `r` (first binding wins); `none` means null. -/
def rowGet (r : Row) (c : String) : Option String :=
  (r.find? (fun p => p.1 == c)).map Prod.snd

/-- A CSV table: ordered header of column names plus the data rows. -/
structure Table where
  columns : List String
  rows : List Row
deriving DecidableEq

/-! ## Key Partitioner (`_subset_grouped_key`, publish.py lines 50-95)

The generator's observable behaviour is modelled as a pure fold over the
data lines.  Each data line of the main table is represented by the pair
`(key, data)` produced by `line.split(",", 1)`; the raw line is
`key ++ "," ++ data`.  The initial sweep building `key_set` and the
progress bar only drive progress reporting and are not modelled.  The
state carries the variables of the loop: `current_key`, `key_folder`
(both `None` initially), the open file handle (key plus the lines written
to it so far) and the files already closed, plus the list of folder keys
whose `main.csv` path has been yielded so far. -/

structure PartitionState where
  currentKey : Option String
  keyFolder : Option String
  fileOpen : Option (String × List String)
  filesDone : List (String × List String)
  yielded : List String

/-- Raw CSV line of a `(key, data)` pair, as written by
`file_handle.write(f"{key},{data}")`. -/
def lineOf (r : String × String) : String := r.1 ++ "," ++ r.2

/-- One iteration of the partitioner loop body on a data line: when the key
changes, the open handle is closed (moved to `filesDone`), the previous
key folder's `main.csv` is yielded, and a fresh file holding the header is
opened; then the line is appended to the open file. -/
def partitionStep (header : String) (st : PartitionState) (row : String × String) :
    PartitionState :=
  let st' :=
    if st.currentKey == some row.1 then st
    else
      { currentKey := some row.1
        keyFolder := some row.1
        fileOpen := some (row.1, [header])
        filesDone := st.filesDone ++ st.fileOpen.toList
        yielded := st.yielded ++ st.keyFolder.toList }
  { st' with fileOpen := st'.fileOpen.map (fun f => (f.1, f.2 ++ [lineOf row])) }

/-- The partitioner `_subset_grouped_key`: fold the loop body over the data
lines, then close the final handle.  On a header-only input the final
`file_handle.close()` is executed with `file_handle = None`, which raises
(`AttributeError`); this is the `.error` case.  On success it returns the
files written (folder key, file lines) in creation order together with
the folder keys whose `main.csv` path was yielded. -/
def subset_grouped_key (header : String) (rows : List (String × String)) :
    Except Unit (List (String × List String) × List String) :=
  let st := rows.foldl (partitionStep header) ⟨none, none, none, [], []⟩
  match st.fileOpen with
  | none => .error ()
  | some f => .ok (st.filesDone ++ [f], st.yielded)

/-- Final on-disk contents: files are opened with mode `"w"`, so a later
open of the same key's `main.csv` truncates and replaces the earlier one. -/
def onDiskFiles (writes : List (String × List String)) : List (String × List String) :=
  writes.foldl (fun acc f => acc.filter (fun g => g.1 != f.1) ++ [f]) []

/-- A grouped input: a list of blocks, each a key together with the data
parts of its lines; the corresponding flat line list. -/
def blockRows (blocks : List (String × List String)) : List (String × String) :=
  blocks.flatMap (fun b => b.2.map (fun d => (b.1, d)))

/-- The file the partitioner writes for one block: the original header
followed by the block's raw lines. -/
def fileOf (header : String) (b : String × List String) : String × List String :=
  (b.1, header :: b.2.map (fun d => lineOf (b.1, d)))

theorem foldl_partitionStep_same_key (header k : String) (ds : List String) :
    ∀ (kf : Option String) (acc : List String)
      (done : List (String × List String)) (yld : List String),
      (ds.map (fun d => (k, d))).foldl (partitionStep header)
        ⟨some k, kf, some (k, acc), done, yld⟩
      = ⟨some k, kf, some (k, acc ++ ds.map (fun d => lineOf (k, d))), done, yld⟩ := by
  induction ds with
  | nil => intro kf acc done yld; simp
  | cons d ds ih =>
    intro kf acc done yld
    simp only [List.map_cons, List.foldl_cons]
    have hstep : partitionStep header ⟨some k, kf, some (k, acc), done, yld⟩ (k, d)
        = ⟨some k, kf, some (k, acc ++ [lineOf (k, d)]), done, yld⟩ := by
      simp [partitionStep]
    rw [hstep, ih]
    simp

theorem foldl_partitionStep_block (header k : String) (d : String) (ds : List String)
    (st : PartitionState) (h : st.currentKey ≠ some k) :
    (((d :: ds).map (fun x => (k, x))).foldl (partitionStep header) st)
      = ⟨some k, some k, some (fileOf header (k, d :: ds)),
          st.filesDone ++ st.fileOpen.toList, st.yielded ++ st.keyFolder.toList⟩ := by
  simp only [List.map_cons, List.foldl_cons]
  have hbeq : (st.currentKey == some k) = false := by
    simpa using h
  have hstep : partitionStep header st (k, d)
      = ⟨some k, some k, some (k, [header, lineOf (k, d)]),
          st.filesDone ++ st.fileOpen.toList, st.yielded ++ st.keyFolder.toList⟩ := by
    simp [partitionStep, hbeq]
  rw [hstep, foldl_partitionStep_same_key]
  simp [fileOf]

theorem foldl_partitionStep_blocks (header : String) :
    ∀ (blocks : List (String × List String)) (hne : blocks ≠ [])
      (hchain : (blocks.map Prod.fst).Chain' (· ≠ ·))
      (hblocks : ∀ b ∈ blocks, b.2 ≠ [])
      (st : PartitionState) (hst : st.currentKey ≠ some (blocks.head hne).1),
      (blockRows blocks).foldl (partitionStep header) st
        = ⟨some (blocks.getLast hne).1, some (blocks.getLast hne).1,
            some (fileOf header (blocks.getLast hne)),
            st.filesDone ++ st.fileOpen.toList ++ blocks.dropLast.map (fileOf header),
            st.yielded ++ st.keyFolder.toList ++ blocks.dropLast.map Prod.fst⟩ := by
  intro blocks
  induction blocks with
  | nil => intro hne; exact absurd rfl hne
  | cons b rest ih =>
    intro hne hchain hblocks st hst
    obtain ⟨k, ds⟩ := b
    cases ds with
    | nil =>
      exact absurd rfl (hblocks (k, []) (by simp))
    | cons d ds' =>
      have hrows : blockRows ((k, d :: ds') :: rest)
          = ((d :: ds').map (fun x => (k, x))) ++ blockRows rest := by
        simp [blockRows]
      rw [hrows, List.foldl_append]
      rw [foldl_partitionStep_block header k d ds' st (by simpa using hst)]
      cases rest with
      | nil =>
        simp [blockRows]
      | cons b2 rest2 =>
        have hne2 : (b2 :: rest2) ≠ [] := by simp
        have hchain2 : ((b2 :: rest2).map Prod.fst).Chain' (· ≠ ·) := by
          simp only [List.map_cons, List.chain'_cons] at hchain ⊢
          exact hchain.2
        have hkne : k ≠ b2.1 := by
          simp only [List.map_cons, List.chain'_cons] at hchain
          exact hchain.1
        have hblocks2 : ∀ x ∈ (b2 :: rest2), x.2 ≠ [] := by
          intro x hx; exact hblocks x (by simp [hx])
        have := ih hne2 hchain2 hblocks2
          ⟨some k, some k, some (fileOf header (k, d :: ds')),
            st.filesDone ++ st.fileOpen.toList ++ [],
            st.yielded ++ st.keyFolder.toList ++ []⟩
          (by simpa using hkne)
        simp only [List.append_nil] at this
        rw [this]
        have hlast : ((k, d :: ds') :: b2 :: rest2).getLast hne
            = (b2 :: rest2).getLast hne2 := List.getLast_cons hne2
        have hdrop : ((k, d :: ds') :: b2 :: rest2).dropLast
            = (k, d :: ds') :: (b2 :: rest2).dropLast := rfl
        rw [hlast, hdrop]
        simp [fileOf, List.append_assoc]

/-- Characterization of the partitioner on a grouped input whose adjacent
keys differ: it succeeds, writes one file per block (header plus the
block's lines) in block order, and yields the folder paths of all blocks
except the last. -/
theorem subset_grouped_key_blocks (header : String)
    (blocks : List (String × List String)) (hne : blocks ≠ [])
    (hchain : (blocks.map Prod.fst).Chain' (· ≠ ·))
    (hblocks : ∀ b ∈ blocks, b.2 ≠ []) :
    subset_grouped_key header (blockRows blocks)
      = .ok (blocks.map (fileOf header), (blocks.map Prod.fst).dropLast) := by
  unfold subset_grouped_key
  rw [foldl_partitionStep_blocks header blocks hne hchain hblocks
    ⟨none, none, none, [], []⟩ (by simp)]
  have hfiles : blocks.dropLast.map (fileOf header) ++ [fileOf header (blocks.getLast hne)]
      = blocks.map (fileOf header) := by
    have h1 : blocks.dropLast.map (fileOf header) ++ [fileOf header (blocks.getLast hne)]
        = (blocks.dropLast ++ [blocks.getLast hne]).map (fileOf header) := by
      simp
    rw [h1, List.dropLast_append_getLast hne]
  have hy : blocks.dropLast.map Prod.fst = (blocks.map Prod.fst).dropLast := by
    have h1 : blocks.map Prod.fst
        = (blocks.dropLast ++ [blocks.getLast hne]).map Prod.fst := by
      rw [List.dropLast_append_getLast hne]
    rw [h1]
    simp
  simp only [Option.toList, List.nil_append, hy, hfiles]

theorem onDiskFiles_of_nodup_aux :
    ∀ (writes acc : List (String × List String)),
      (writes.map Prod.fst).Nodup →
      (∀ a ∈ acc, ∀ w ∈ writes, a.1 ≠ w.1) →
      writes.foldl (fun acc f => acc.filter (fun g => g.1 != f.1) ++ [f]) acc
        = acc ++ writes := by
  intro writes
  induction writes with
  | nil => intro acc _ _; simp
  | cons w ws ih =>
    intro acc hnodup hdisj
    simp only [List.foldl_cons]
    have hacc : acc.filter (fun g => g.1 != w.1) = acc := by
      apply List.filter_eq_self.mpr
      intro a ha
      simpa using hdisj a ha w (by simp)
    rw [hacc]
    have hnodup' : (ws.map Prod.fst).Nodup := by
      simp only [List.map_cons, List.nodup_cons] at hnodup
      exact hnodup.2
    have hw : w.1 ∉ ws.map Prod.fst := by
      simp only [List.map_cons, List.nodup_cons] at hnodup
      exact hnodup.1
    have hdisj' : ∀ a ∈ acc ++ [w], ∀ x ∈ ws, a.1 ≠ x.1 := by
      intro a ha x hx
      rcases List.mem_append.mp ha with h | h
      · exact hdisj a h x (by simp [hx])
      · simp only [List.mem_singleton] at h
        subst h
        intro hcontr
        exact hw (by rw [hcontr]; exact List.mem_map_of_mem Prod.fst hx)
    have := ih (acc ++ [w]) hnodup' hdisj'
    rw [this]
    simp

/-- When the written files have pairwise distinct keys, no truncation by
re-opening occurs: the on-disk contents are exactly the files written. -/
theorem onDiskFiles_of_nodup (writes : List (String × List String))
    (h : (writes.map Prod.fst).Nodup) : onDiskFiles writes = writes := by
  unfold onDiskFiles
  simpa using onDiskFiles_of_nodup_aux writes [] h (by simp)

theorem blockRows_filter_eq : ∀ (blocks : List (String × List String)),
    (blocks.map Prod.fst).Nodup →
    ∀ b ∈ blocks,
      (blockRows blocks).filter (fun r => r.1 == b.1) = b.2.map (fun d => (b.1, d)) := by
  intro blocks
  induction blocks with
  | nil => intro _ b hb; simp at hb
  | cons hd rest ih =>
    intro hnodup b hb
    have hrows : blockRows (hd :: rest)
        = hd.2.map (fun d => (hd.1, d)) ++ blockRows rest := by
      simp [blockRows]
    have hnodup' : (rest.map Prod.fst).Nodup := by
      simp only [List.map_cons, List.nodup_cons] at hnodup
      exact hnodup.2
    have hhd : hd.1 ∉ rest.map Prod.fst := by
      simp only [List.map_cons, List.nodup_cons] at hnodup
      exact hnodup.1
    rw [hrows, List.filter_append]
    rcases List.mem_cons.mp hb with h | h
    · subst h
      have h1 : (b.2.map (fun d => (b.1, d))).filter (fun r => r.1 == b.1)
          = b.2.map (fun d => (b.1, d)) := by
        apply List.filter_eq_self.mpr
        intro a ha
        obtain ⟨d, _, rfl⟩ := List.mem_map.mp ha
        simp
      have h2 : (blockRows rest).filter (fun r => r.1 == b.1) = [] := by
        apply List.filter_eq_nil_iff.mpr
        intro r hr
        obtain ⟨bb, hbb, hr'⟩ := List.mem_flatMap.mp hr
        obtain ⟨d, _, rfl⟩ := List.mem_map.mp hr'
        simp only [beq_iff_eq]
        intro hcontr
        exact hhd (hcontr ▸ List.mem_map_of_mem Prod.fst hbb)
      rw [h1, h2, List.append_nil]
    · have hbk : hd.1 ≠ b.1 := by
        intro hcontr
        exact hhd (hcontr ▸ List.mem_map_of_mem Prod.fst h)
      have h1 : (hd.2.map (fun d => (hd.1, d))).filter (fun r => r.1 == b.1) = [] := by
        apply List.filter_eq_nil_iff.mpr
        intro a ha
        obtain ⟨d, _, rfl⟩ := List.mem_map.mp ha
        simpa using hbk
      rw [h1, List.nil_append]
      exact ih hnodup' b h

/-- C4: given a key-grouped input with `K` distinct keys (every block
nonempty), the key partitioner succeeds and the on-disk result is exactly
`K` files, one per key in input order; each file is the original header
followed by exactly the input data lines bearing that file's key; and the
concatenation of all files' data lines (dropping each file's header) is
exactly the input's data lines, so every input data row lands in exactly
one file exactly once. -/
theorem subset_grouped_key_partitions (header : String)
    (blocks : List (String × List String)) (rows : List (String × String))
    (hrows : rows = blockRows blocks)
    (hne : blocks ≠ [])
    (hnodup : (blocks.map Prod.fst).Nodup)
    (hblocks : ∀ b ∈ blocks, b.2 ≠ []) :
    ∃ files yielded,
      subset_grouped_key header rows = .ok (files, yielded) ∧
      onDiskFiles files = files ∧
      files.length = blocks.length ∧
      files.map Prod.fst = blocks.map Prod.fst ∧
      (∀ f ∈ files,
        f.2 = header :: (rows.filter (fun r => r.1 == f.1)).map lineOf) ∧
      files.flatMap (fun f => f.2.drop 1) = rows.map lineOf := by
  subst hrows
  have hchain : (blocks.map Prod.fst).Chain' (· ≠ ·) :=
    List.Pairwise.chain' hnodup
  refine ⟨blocks.map (fileOf header), (blocks.map Prod.fst).dropLast,
    subset_grouped_key_blocks header blocks hne hchain hblocks, ?_, ?_, ?_, ?_, ?_⟩
  · apply onDiskFiles_of_nodup
    have : (blocks.map (fileOf header)).map Prod.fst = blocks.map Prod.fst := by
      simp [fileOf]
    rw [this]; exact hnodup
  · simp
  · simp [fileOf]
  · intro f hf
    obtain ⟨b, hb, rfl⟩ := List.mem_map.mp hf
    have := blockRows_filter_eq blocks hnodup b hb
    simp only [fileOf]
    rw [this]
    simp [lineOf]
  · have h1 : (blocks.map (fileOf header)).flatMap (fun f => f.2.drop 1)
        = blocks.flatMap (fun b => b.2.map (fun d => lineOf (b.1, d))) := by
      rw [List.flatMap_map]
      rfl
    have h2 : (blockRows blocks).map lineOf
        = blocks.flatMap (fun b => b.2.map (fun d => lineOf (b.1, d))) := by
      simp only [blockRows, List.map_flatMap, List.map_map]
      rfl
    rw [h1]
    exact h2.symm

/-- Witness for C4 at a concrete grouped two-key input. -/
theorem subset_grouped_key_partitions_witness :
    ∃ files yielded,
      subset_grouped_key "location_key,date,x"
        [("AD", "2020-01-01,1"), ("AD", "2020-01-02,2"), ("US", "2020-01-01,3")]
        = .ok (files, yielded) ∧ files.length = 2 := by
  obtain ⟨files, yielded, h1, _, h3, _⟩ :=
    subset_grouped_key_partitions "location_key,date,x"
      [("AD", ["2020-01-01,1", "2020-01-02,2"]), ("US", ["2020-01-01,3"])]
      [("AD", "2020-01-01,1"), ("AD", "2020-01-02,2"), ("US", "2020-01-01,3")]
      (by decide) (by decide) (by decide) (by decide)
  exact ⟨files, yielded, h1, h3⟩

/-- C9: on a header-only input (no data rows), the partitioner does not
return normally with zero files: the final `file_handle.close()` runs with
`file_handle = None` and raises. -/
theorem subset_grouped_key_header_only (header : String) :
    subset_grouped_key header [] = .error () := rfl

/-- C10: on a grouped input with `K ≥ 1` distinct keys, the iterator yields
exactly `K - 1` paths: the folder keys of all blocks except the last, in
order; the last key's file is written on disk but its path is never
yielded. -/
theorem subset_grouped_key_yields_all_but_last (header : String)
    (blocks : List (String × List String)) (rows : List (String × String))
    (hrows : rows = blockRows blocks)
    (hne : blocks ≠ [])
    (hnodup : (blocks.map Prod.fst).Nodup)
    (hblocks : ∀ b ∈ blocks, b.2 ≠ []) :
    ∃ files yielded,
      subset_grouped_key header rows = .ok (files, yielded) ∧
      yielded = (blocks.map Prod.fst).dropLast ∧
      yielded.length = blocks.length - 1 ∧
      (blocks.getLast hne).1 ∈ files.map Prod.fst ∧
      (blocks.getLast hne).1 ∉ yielded := by
  subst hrows
  have hchain : (blocks.map Prod.fst).Chain' (· ≠ ·) :=
    List.Pairwise.chain' hnodup
  have hne' : blocks.map Prod.fst ≠ [] := by simpa using hne
  refine ⟨blocks.map (fileOf header), (blocks.map Prod.fst).dropLast,
    subset_grouped_key_blocks header blocks hne hchain hblocks, rfl, ?_, ?_, ?_⟩
  · simp
  · have hmem : blocks.getLast hne ∈ blocks := List.getLast_mem hne
    have h1 : (blocks.getLast hne).1 ∈ blocks.map Prod.fst :=
      List.mem_map_of_mem Prod.fst hmem
    have hcols : (blocks.map (fileOf header)).map Prod.fst = blocks.map Prod.fst := by
      simp [fileOf]
    rw [hcols]
    exact h1
  · have hlast : (blocks.map Prod.fst).getLast hne' = (blocks.getLast hne).1 := by
      rw [List.getLast_map]
    rw [← hlast]
    have hnodup2 : (blocks.map Prod.fst).Nodup := hnodup
    intro hcontr
    have hsplit := List.dropLast_append_getLast hne'
    rw [← hsplit] at hnodup2
    exact List.disjoint_of_nodup_append hnodup2 hcontr (by simp)

/-- Witness for C10 at a concrete grouped two-key input. -/
theorem subset_grouped_key_yields_witness :
    ∃ files yielded,
      subset_grouped_key "location_key,date,x"
        [("AD", "2020-01-01,1"), ("US", "2020-01-01,3")]
        = .ok (files, yielded) ∧ yielded = ["AD"] := by
  obtain ⟨files, yielded, h1, h2, _, _, _⟩ :=
    subset_grouped_key_yields_all_but_last "location_key,date,x"
      [("AD", ["2020-01-01,1"]), ("US", ["2020-01-01,3"])]
      [("AD", "2020-01-01,1"), ("US", "2020-01-01,3")]
      (by decide) (by decide) (by decide) (by decide)
  exact ⟨files, yielded, h1, h2.trans (by decide)⟩

/-! ## Mirror Converter (`convert_tables_to_json`, publish.py lines 350-374)

The underlying CSV-to-JSON conversion (`convert_csv_to_json_records`,
`lib/memory_efficient.py`) is external; it is modelled from the spec as an
abstract fallible conversion oracle `conv`.  The converter's own control
flow (the `try`/`except` per file, the log message, the filtering of
failed conversions out of the yielded outputs) is modelled from the
source. -/

/-- Replace every occurrence of `".csv"` by `".json"` in a character list,
left to right, mirroring Python's `str.replace(".csv", ".json")`. -/
def replaceCsvJson : List Char → List Char
  | '.' :: 'c' :: 's' :: 'v' :: rest => '.' :: 'j' :: 's' :: 'o' :: 'n' :: replaceCsvJson rest
  | c :: rest => c :: replaceCsvJson rest
  | [] => []

/-- JSON output path of a CSV file: the relative path with `".csv"`
replaced by `".json"` (publish.py line 355). -/
def jsonPathOf (csvFile : String) : String := ⟨replaceCsvJson csvFile.data⟩

/-- Error message logged, together with the traceback, when converting
`csvFile` fails (publish.py line 365): it names the failing path. -/
def convErrMsg (csvFile : String) : String :=
  "Unable to convert CSV file " ++ csvFile ++ " to JSON"

/-- One conversion attempt (`try_json_covert`, publish.py lines 353-367):
on success the JSON output path is returned and nothing is logged; any
exception is caught, the error is logged with the failing path, and the
result is `None`. -/
def try_json_covert (conv : String → Except String Unit) (csvFile : String) :
    Option String × List String :=
  match conv csvFile with
  | .ok _ => (some (jsonPathOf csvFile), [])
  | .error _ => (none, [convErrMsg csvFile])

/-- The batch converter `convert_tables_to_json` (publish.py lines
350-374): every CSV file is attempted; the yielded outputs are exactly the
non-`None` results, and the log collects the per-file error messages.  The
batch itself is a total function: it returns normally for every oracle. -/
def convert_tables_to_json (conv : String → Except String Unit) (files : List String) :
    List String × List String :=
  ((files.map (try_json_covert conv)).filterMap Prod.fst,
   (files.map (try_json_covert conv)).flatMap Prod.snd)

/-- C6: for every conversion oracle and every batch of files, the yielded
output files are exactly the JSON paths of the files whose conversion
succeeded (so a failing table's output file is exactly the one not
yielded, and no other table is affected), the log holds exactly one
message naming the failing path for each failure, and the batch returns
normally (it is a total function, applied here to an arbitrary oracle
including ones that always fail). -/
theorem convert_tables_to_json_isolates_failures
    (conv : String → Except String Unit) (files : List String) :
    (convert_tables_to_json conv files).1
      = (files.filter (fun f => (conv f).isOk)).map jsonPathOf ∧
    (convert_tables_to_json conv files).2
      = (files.filter (fun f => !(conv f).isOk)).map convErrMsg := by
  constructor
  · induction files with
    | nil => rfl
    | cons f fs ih =>
      simp only [convert_tables_to_json, List.map_cons, List.filterMap_cons,
        List.filter_cons] at ih ⊢
      cases hc : conv f with
      | ok v => simp [try_json_covert, hc, Except.isOk, Except.toBool, ih]
      | error e => simp [try_json_covert, hc, Except.isOk, Except.toBool, ih]
  · induction files with
    | nil => rfl
    | cons f fs ih =>
      simp only [convert_tables_to_json, List.map_cons, List.flatMap_cons,
        List.filter_cons] at ih ⊢
      cases hc : conv f with
      | ok v => simp [try_json_covert, hc, Except.isOk, Except.toBool, ih]
      | error e => simp [try_json_covert, hc, Except.isOk, Except.toBool, ih]

/-! ## Table algebra primitives

These operations live in `lib/memory_efficient.py` and `lib/sql.py`,
which are outside the given sources; they are modelled from the spec's
contracts (spec sections 2, 3, 4.1). -/

/-- Do the `onCols` values of candidate right row `rr` agree with those of
the left row `lr`? -/
def rowMatches (onCols : List String) (lr rr : Row) : Bool :=
  onCols.all (fun c => rowGet rr c == rowGet lr c)

/-- Modelled from the spec: `table_join(A, B, on, how="outer")` from
`lib/memory_efficient.py` with the spec's left/outer contract (spec 2 and
4.1: "left/outer semantics throughout (no topic table may cause rows to
disappear from the key by date universe)").  Every left row is kept; each
matching right row extends it (bindings are left-biased, so an existing
column value is never overwritten or nulled); a left row without a match
keeps its bindings and the new columns stay null; the column header
becomes the union. -/
def table_join (left right : Table) (onCols : List String) : Table :=
  { columns := left.columns ++ right.columns.filter (fun c => !(left.columns.contains c)),
    rows := left.rows.flatMap (fun lr =>
      match right.rows.filter (rowMatches onCols lr) with
      | [] => [lr]
      | ms => ms.map (fun rr => lr ++ rr)) }

/-- Modelled from the spec: `table_cross_product(A, B)` from
`lib/memory_efficient.py` (spec 2): all combinations of a row of `A` with
a row of `B`. -/
def table_cross_product (a b : Table) : Table :=
  { columns := a.columns ++ b.columns,
    rows := a.rows.flatMap (fun ra => b.rows.map (fun rb => ra ++ rb)) }

/-- Modelled from the spec: `table_read_column(table, column)` from
`lib/memory_efficient.py` (spec 2: `read_column(A,name) -> sequence`): the
non-null values of one column, in row order. -/
def table_read_column (t : Table) (c : String) : List String :=
  t.rows.filterMap (fun r => rowGet r c)

/-- CSV rendering of a row under a column order: values joined by commas,
null as the empty field. -/
def renderRow (cols : List String) (r : Row) : String :=
  String.intercalate "," (cols.map (fun c => (rowGet r c).getD ""))

/-- The data lines of a table as written to its CSV file (header line
excluded). -/
def renderLines (t : Table) : List String :=
  t.rows.map (renderRow t.columns)

/-- Modelled from the spec: `table_sort(table, output)` without explicit
sort columns from `lib/memory_efficient.py` (spec 3: "output is sorted
lexically by row content"): the data lines are sorted lexically. -/
def table_sort (t : Table) : Table :=
  { t with rows := sortLe (fun r s => strLe (renderRow t.columns r) (renderRow t.columns s)) t.rows }

/-- Lexicographic comparison of two rows on a list of sort columns (null
compares as the empty string). -/
def colsLe (cols : List String) (r s : Row) : Bool :=
  match cols with
  | [] => true
  | c :: rest =>
    let a := (rowGet r c).getD ""
    let b := (rowGet s c).getD ""
    if a == b then colsLe rest r s else strLe a b

/-- Modelled from the spec: `table_sort(table, output, sort_columns)` with
explicit sort columns (used with `["location_key"]` by
`publish_global_tables`), and also `table_as_csv(conn, name, output,
sort_by=[key, "date"])` from `lib/sql.py` (spec 2: `export(relation,
sort_by) -> file`): rows ordered by the sort columns. -/
def table_sort_by (cols : List String) (t : Table) : Table :=
  { t with rows := sortLe (colsLe cols) t.rows }

/-- Modelled from the spec: `table_drop_nan_columns` from
`lib/memory_efficient.py` (spec 8.8: "a column null in 100% of output rows
is absent; with it disabled, the column is present"): drop every column
whose value is null in all rows. -/
def table_drop_nan_columns (t : Table) : Table :=
  let keep := t.columns.filter (fun c => t.rows.any (fun r => (rowGet r c).isSome))
  { columns := keep, rows := t.rows.map (fun r => r.filter (fun p => keep.contains p.1)) }

/-- Modelled from the spec: `table_rename(table, output, adapter)` from
`lib/memory_efficient.py` (spec 6: "column names adapted to the canonical
published names where a rename mapping applies"); `OUTPUT_COLUMN_ADAPTER`
is an external constant from `lib/constants.py` and is taken as the
`adapter` parameter. -/
def table_rename (adapter : String → Option String) (t : Table) : Table :=
  { columns := t.columns.map (fun c => (adapter c).getD c),
    rows := t.rows.map (fun r => r.map (fun p => ((adapter p.1).getD p.1, p.2))) }

/-- Modelled from the spec: `table_merge(conn, tables, on, how="LEFT
OUTER", into_table)` from `lib/sql.py` (spec 4.1 strategy 3: "the
underlying engine only supports one join direction"): the listed relations
are merged by iterated left outer joins with the first relation as the
base. -/
def table_merge (ts : List Table) (onCols : List String) : Table :=
  match ts with
  | [] => ⟨[], []⟩
  | t :: rest => rest.foldl (fun acc u => table_join acc u onCols) t

/-! ## Main Table Builders (publish.py lines 110-330)

A tables folder is modelled as the list of its CSV files in glob order:
`(file stem, table contents)` pairs.  The date list produced by
`date_range("2020-01-01", max_date)` (from `lib/time.py`, external, spec
3: all dates in range `[2020-01-01, tomorrow]`) is taken as the `dates`
parameter. -/

/-- Look up a table by file stem in the folder. -/
def findTable (tables : List (String × Table)) (name : String) : Option Table :=
  (tables.find? (fun nt => nt.1 == name)).map Prod.snd

/-- One-column helper table, used for the keys table and dates table the
builders write to their temporary directories. -/
def singleColumnTable (c : String) (vals : List String) : Table :=
  ⟨[c], vals.map (fun v => [(c, v)])⟩

/-- The cross product of all location keys and all dates
(`_make_location_key_and_date_table`, publish.py lines 175-198): asserts
the presence of the index table (`none` models the `assert` failing), then
crosses the index's `location_key` column with the date range. -/
def make_location_key_and_date_table (tables : List (String × Table)) (dates : List String) :
    Option Table :=
  (findTable tables "index").map (fun indexT =>
    table_cross_product
      (singleColumnTable "location_key" (table_read_column indexT "location_key"))
      (singleColumnTable "date" dates))

/-- Direct streaming join builder (`make_main_table`, publish.py lines
110-172, v2 schema with key column `"key"`): cross product of index keys
and dates, seeded by an outer join with the index table, then an iterative
outer join with every table whose stem is not in `EXCLUDE_FROM_MAIN_TABLE`
(an external constant from `lib/constants.py`, taken as the `excl`
parameter), joining on `["key", "date"]` for dated tables and `["key"]`
otherwise, and a final lexical sort.  `read_file(..., usecols=["key"])`
raises when the index has no `key` column; `none` models that failure.
The `non_dated_columns` set the source accumulates is never read
afterwards and is not modelled. -/
def make_main_table (excl : List String) (tables : List (String × Table))
    (dates : List String) : Option Table :=
  (findTable tables "index").bind (fun indexT =>
    if indexT.columns.contains "key" then
      some (
        let cross := table_cross_product
          (singleColumnTable "key" (table_read_column indexT "key"))
          (singleColumnTable "date" dates)
        let main0 := table_join cross indexT ["key"]
        let joined := tables.foldl (fun acc nt =>
          if excl.contains nt.1 then acc
          else table_join acc nt.2
            (if nt.2.columns.contains "date" then ["key", "date"] else ["key"])) main0
        table_sort joined)
    else none)

/-- Double-buffered streaming join builder (`make_main_table_v3`,
publish.py lines 201-250, v3 schema with key column `"location_key"`):
start from the key-by-date cross product, iteratively outer join every
table except the one named `"main"` (on `["location_key", "date"]` when
dated, else `["location_key"]`), optionally drop all-null columns, and
sort lexically.  The flip-flopping between the two temporary files is an
I/O-level optimization with no effect on the table computed. -/
def make_main_table_v3 (tables : List (String × Table)) (dates : List String)
    (drop_empty_columns : Bool) : Option Table :=
  (make_location_key_and_date_table tables dates).map (fun base =>
    let joined := tables.foldl (fun acc nt =>
      if nt.1 == "main" then acc
      else table_join acc nt.2
        (if nt.2.columns.contains "date" then ["location_key", "date"] else ["location_key"])) base
    let dropped := if drop_empty_columns then table_drop_nan_columns joined else joined
    table_sort dropped)

/-- Relational staged merge builder (`make_main_table_sqlite`, publish.py
lines 253-330): import the key-by-date cross product and every table;
merge all non-dated tables on `["location_key"]` into `_idx1` (base: the
first non-dated table in glob order), merge the cross product and all
dated tables on `["location_key", "date"]` into `_idx2` (base: the cross
product), left outer join `_idx2` with `_idx1` on `["location_key"]`,
export sorted by `(location_key, date)`, and optionally drop all-null
columns. -/
def make_main_table_sqlite (tables : List (String × Table)) (dates : List String)
    (drop_empty_columns : Bool) : Option Table :=
  (make_location_key_and_date_table tables dates).map (fun cross =>
    let idx1 := (tables.filter (fun nt => !(nt.2.columns.contains "date"))).map Prod.snd
    let idx2 := cross :: (tables.filter (fun nt => nt.2.columns.contains "date")).map Prod.snd
    let m1 := table_merge idx1 ["location_key"]
    let m2 := table_merge idx2 ["location_key", "date"]
    let mainT := table_join m2 m1 ["location_key"]
    let sorted := table_sort_by ["location_key", "date"] mainT
    if drop_empty_columns then table_drop_nan_columns sorted else sorted)

/-- Normal form of a row over a fixed column list: the tuple of its
(optional) values, making rows comparable independently of column order
and binding layout. -/
def normRow (cols : List String) (r : Row) : List (Option String) :=
  cols.map (fun c => rowGet r c)

/-- Two tables hold the same row set up to column ordering: same column
set, and the same multiset of rows when both are normalized over a common
column list. -/
def sameRowSet (t1 t2 : Table) : Prop :=
  t1.columns.toFinset = t2.columns.toFinset ∧
  ((t1.rows.map (normRow (t1.columns ++ t2.columns)) : Multiset (List (Option String)))
    = (t2.rows.map (normRow (t1.columns ++ t2.columns)) : List (List (Option String))))

instance (t1 t2 : Table) : Decidable (sameRowSet t1 t2) := by
  unfold sameRowSet
  infer_instance

/-! ## Sort order facts -/

theorem char_toNat_inj {a b : Char} (h : a.toNat = b.toNat) : a = b :=
  Char.eq_of_val_eq (UInt32.ext h)

theorem charsLe_antisymm : ∀ a b : List Char,
    charsLe a b = true → charsLe b a = true → a = b := by
  intro a
  induction a with
  | nil =>
    intro b h1 h2
    cases b with
    | nil => rfl
    | cons y ys =>
      rw [show charsLe (y :: ys) [] = false from rfl] at h2
      exact Bool.noConfusion h2
  | cons x xs ih =>
    intro b h1 h2
    cases b with
    | nil =>
      rw [show charsLe (x :: xs) [] = false from rfl] at h1
      exact Bool.noConfusion h1
    | cons y ys =>
      rw [charsLe_cons_iff] at h1 h2
      rcases h1 with h1 | ⟨h1, h1'⟩
      · rcases h2 with h2 | ⟨h2, _⟩
        · omega
        · omega
      · rcases h2 with h2 | ⟨h2, h2'⟩
        · omega
        · rw [char_toNat_inj h1, ih ys h1' h2']

theorem strLe_antisymm (a b : String) (h1 : strLe a b = true) (h2 : strLe b a = true) :
    a = b := by
  cases a; cases b
  exact congrArg String.mk (charsLe_antisymm _ _ h1 h2)

theorem colsLe_trans (cols : List String) : ∀ r s t : Row,
    colsLe cols r s = true → colsLe cols s t = true → colsLe cols r t = true := by
  induction cols with
  | nil => intro r s t _ _; rfl
  | cons c rest ih =>
    intro r s t h1 h2
    simp only [colsLe] at h1 h2 ⊢
    by_cases hab : ((rowGet r c).getD "") = ((rowGet s c).getD "")
    · rw [if_pos (by simpa using hab)] at h1
      by_cases hbc : ((rowGet s c).getD "") = ((rowGet t c).getD "")
      · rw [if_pos (by simpa using hbc)] at h2
        rw [if_pos (by simp [hab, hbc])]
        exact ih r s t h1 h2
      · rw [if_neg (by simpa using hbc)] at h2
        have hac : ¬ ((rowGet r c).getD "") = ((rowGet t c).getD "") := by
          rw [hab]; exact hbc
        rw [if_neg (by simpa using hac), hab]
        exact h2
    · rw [if_neg (by simpa using hab)] at h1
      by_cases hbc : ((rowGet s c).getD "") = ((rowGet t c).getD "")
      · have hac : ¬ ((rowGet r c).getD "") = ((rowGet t c).getD "") := by
          rw [← hbc]; exact hab
        rw [if_neg (by simpa using hac), ← hbc]
        exact h1
      · rw [if_neg (by simpa using hbc)] at h2
        by_cases hac : ((rowGet r c).getD "") = ((rowGet t c).getD "")
        · exfalso
          apply hab
          apply strLe_antisymm _ _ h1
          rw [← hac] at h2
          exact h2
        · rw [if_neg (by simpa using hac)]
          exact strLe_trans _ _ _ h1 h2

theorem colsLe_total (cols : List String) : ∀ r s : Row,
    (colsLe cols r s || colsLe cols s r) = true := by
  induction cols with
  | nil => intro r s; rfl
  | cons c rest ih =>
    intro r s
    simp only [colsLe]
    by_cases hab : ((rowGet r c).getD "") = ((rowGet s c).getD "")
    · rw [if_pos (by simpa using hab), if_pos (by simpa using hab.symm)]
      exact ih r s
    · rw [if_neg (by simpa using hab), if_neg (by simpa using (Ne.symm hab))]
      exact strLe_total _ _

/-- The data lines of a table are non-decreasing in lexical order. -/
def linesSorted (t : Table) : Prop :=
  (renderLines t).Pairwise (fun a b => strLe a b = true)

instance (t : Table) : Decidable (linesSorted t) := by
  unfold linesSorted
  infer_instance

/-- The rows of a table are non-decreasing in the lexicographic order of
the given sort columns. -/
def rowsSortedBy (cols : List String) (t : Table) : Prop :=
  t.rows.Pairwise (fun r s => colsLe cols r s = true)

theorem table_sort_linesSorted (t : Table) : linesSorted (table_sort t) := by
  unfold linesSorted renderLines table_sort
  simp only
  rw [List.pairwise_map]
  exact pairwise_sortLe
    (fun r s => strLe (renderRow t.columns r) (renderRow t.columns s))
    (fun a b c hab hbc => strLe_trans _ _ _ hab hbc)
    (fun a b => strLe_total _ _) t.rows

theorem table_sort_by_sorted (cols : List String) (t : Table) :
    rowsSortedBy cols (table_sort_by cols t) := by
  unfold rowsSortedBy table_sort_by
  simp only
  exact pairwise_sortLe (colsLe cols)
    (fun a b c hab hbc => colsLe_trans cols _ _ _ hab hbc)
    (fun a b => colsLe_total cols a b) t.rows

theorem rowGet_cons (p : String × String) (r : Row) (c : String) :
    rowGet (p :: r) c = if (p.1 == c) = true then some p.2 else rowGet r c := by
  unfold rowGet
  cases h : (p.1 == c) with
  | true =>
    rw [@List.find?_cons_of_pos _ (fun z => z.1 == c) p r h]
    simp
  | false =>
    rw [@List.find?_cons_of_neg _ (fun z => z.1 == c) p r (by simp [h])]
    simp

theorem rowGet_filter (q : String → Bool) (c : String) : ∀ r : Row,
    rowGet (r.filter (fun p => q p.1)) c = if q c then rowGet r c else none := by
  intro r
  induction r with
  | nil => simp [rowGet]
  | cons p rest ih =>
    simp only [List.filter_cons]
    by_cases hq : q p.1 = true
    · simp only [hq, if_true]
      rw [rowGet_cons, rowGet_cons]
      by_cases hc : (p.1 == c) = true
      · have heq : p.1 = c := by simpa using hc
        subst heq
        rw [if_pos hc, if_pos hc, if_pos hq]
      · rw [if_neg hc, if_neg hc]
        exact ih
    · have hq' : q p.1 = false := by simpa using hq
      simp only [hq', Bool.false_eq_true, if_false]
      rw [ih]
      by_cases hc : (p.1 == c) = true
      · have heq : p.1 = c := by simpa using hc
        subst heq
        rw [if_neg (by simpa using hq), if_neg (by simpa using hq)]
      · rw [rowGet_cons, if_neg hc]

theorem colsLe_congr (cols : List String) : ∀ r r' s s' : Row,
    (∀ c ∈ cols, (rowGet r' c).getD "" = (rowGet r c).getD "") →
    (∀ c ∈ cols, (rowGet s' c).getD "" = (rowGet s c).getD "") →
    colsLe cols r' s' = colsLe cols r s := by
  induction cols with
  | nil => intro r r' s s' _ _; rfl
  | cons c rest ih =>
    intro r r' s s' hr hs
    simp only [colsLe]
    rw [hr c (by simp), hs c (by simp)]
    rw [ih r r' s s' (fun d hd => hr d (by simp [hd])) (fun d hd => hs d (by simp [hd]))]

theorem rowsSortedBy_drop_nan (t : Table) (cols : List String)
    (hcols : ∀ c ∈ cols, c ∈ t.columns)
    (h : rowsSortedBy cols t) : rowsSortedBy cols (table_drop_nan_columns t) := by
  unfold rowsSortedBy table_drop_nan_columns
  simp only
  rw [List.pairwise_map]
  apply h.imp_of_mem
  intro r s hr hs hrs
  have hval : ∀ c ∈ cols, ∀ x ∈ t.rows,
      (rowGet (x.filter (fun p =>
        (t.columns.filter (fun c => t.rows.any (fun r => (rowGet r c).isSome))).contains p.1)) c).getD ""
      = (rowGet x c).getD "" := by
    intro c hc x hx
    rw [rowGet_filter]
    by_cases hk : (t.columns.filter (fun c => t.rows.any (fun r => (rowGet r c).isSome))).contains c
    · rw [if_pos hk]
    · rw [if_neg hk]
      have hnone : rowGet x c = none := by
        by_contra hcontr
        apply hk
        have hsome : (rowGet x c).isSome := by
          cases hv : rowGet x c with
          | none => exact absurd hv hcontr
          | some v => simp
        have hany : t.rows.any (fun r => (rowGet r c).isSome) = true :=
          List.any_eq_true.mpr ⟨x, hx, hsome⟩
        have hmem : c ∈ t.columns.filter (fun c => t.rows.any (fun r => (rowGet r c).isSome)) :=
          List.mem_filter.mpr ⟨hcols c hc, hany⟩
        simpa using hmem
      rw [hnone]
  rw [colsLe_congr cols r _ s _ (fun c hc => hval c hc r hr) (fun c hc => hval c hc s hs)]
  exact hrs

theorem mem_columns_foldl_join (onCols : List String) (c : String) :
    ∀ (ts : List Table) (base : Table), c ∈ base.columns →
      c ∈ (ts.foldl (fun acc u => table_join acc u onCols) base).columns := by
  intro ts
  induction ts with
  | nil => intro base hb; exact hb
  | cons t rest ih =>
    intro base hb
    simp only [List.foldl_cons]
    exact ih (table_join base t onCols) (by simp [table_join, hb])

/-! ## Sort invariant of the builders (claim C3) -/

theorem make_main_table_eq_sort (excl : List String) (tables : List (String × Table))
    (dates : List String) (out : Table)
    (h : make_main_table excl tables dates = some out) : ∃ X, out = table_sort X := by
  unfold make_main_table at h
  rcases Option.bind_eq_some.mp h with ⟨indexT, _, h2⟩
  by_cases hkey : indexT.columns.contains "key" = true
  · rw [if_pos hkey] at h2
    exact ⟨_, (Option.some.inj h2).symm⟩
  · rw [if_neg hkey] at h2
    exact Option.noConfusion h2

theorem make_main_table_v3_eq_sort (tables : List (String × Table)) (dates : List String)
    (flag : Bool) (out : Table)
    (h : make_main_table_v3 tables dates flag = some out) : ∃ X, out = table_sort X := by
  unfold make_main_table_v3 at h
  rcases Option.map_eq_some'.mp h with ⟨base, _, h2⟩
  exact ⟨_, h2.symm⟩

/-- C3 counterexample input: two location keys `"A"` and `"A!"`.  The
staged-merge builder sorts by the `(location_key, date)` column pair, under
which `"A" < "A!"`, but the full CSV line of `"A"` continues with a comma
(code point 44) where the line of `"A!"` has `'!'` (code point 33), so the
rendered lines come out in strictly decreasing lexical order. -/
def c3Index : Table :=
  ⟨["location_key"], [[("location_key", "A")], [("location_key", "A!")]]⟩

def c3Tables : List (String × Table) := [("index", c3Index)]

def c3Dates : List String := ["2020-01-01"]

/-- C3 counterexample: the claim "for every builder strategy the output
lines are non-decreasing in lexical order" fails for
`make_main_table_sqlite` at this concrete input. -/
theorem main_table_sort_invariant_cex :
    (make_main_table_sqlite c3Tables c3Dates false).isSome = true ∧
    ¬ linesSorted ((make_main_table_sqlite c3Tables c3Dates false).getD ⟨[], []⟩) := by
  constructor
  · decide
  · decide

/-- C3 (amended): the direct streaming builder and the double-buffered
builder end with a full lexical sort, so their output lines (header
excluded) are non-decreasing in lexical row-string order; the staged-merge
(sqlite) builder instead exports sorted by the `(location_key, date)`
column pair, an order that can disagree with lexical row-string order
(see the counterexample), and its output rows are non-decreasing in that
column-pair order. -/
theorem main_table_sort_invariant :
    (∀ excl tables dates out,
      make_main_table excl tables dates = some out → linesSorted out) ∧
    (∀ tables dates flag out,
      make_main_table_v3 tables dates flag = some out → linesSorted out) ∧
    (∀ tables dates flag out,
      make_main_table_sqlite tables dates flag = some out →
        rowsSortedBy ["location_key", "date"] out) := by
  refine ⟨?_, ?_, ?_⟩
  · intro excl tables dates out h
    obtain ⟨X, hX⟩ := make_main_table_eq_sort excl tables dates out h
    rw [hX]
    exact table_sort_linesSorted X
  · intro tables dates flag out h
    obtain ⟨X, hX⟩ := make_main_table_v3_eq_sort tables dates flag out h
    rw [hX]
    exact table_sort_linesSorted X
  · intro tables dates flag out h
    unfold make_main_table_sqlite at h
    rcases Option.map_eq_some'.mp h with ⟨cross, hcross, h2⟩
    have hcross_cols : cross.columns = ["location_key", "date"] := by
      unfold make_location_key_and_date_table at hcross
      rcases Option.map_eq_some'.mp hcross with ⟨idxT, _, hc2⟩
      rw [← hc2]
      rfl
    cases flag with
    | false =>
      have hout : out = table_sort_by ["location_key", "date"]
          (table_join
            (table_merge (cross ::
              (tables.filter (fun nt => nt.2.columns.contains "date")).map Prod.snd)
              ["location_key", "date"])
            (table_merge
              ((tables.filter (fun nt => !(nt.2.columns.contains "date"))).map Prod.snd)
              ["location_key"])
            ["location_key"]) := h2.symm
      rw [hout]
      exact table_sort_by_sorted _ _
    | true =>
      have hout : out = table_drop_nan_columns (table_sort_by ["location_key", "date"]
          (table_join
            (table_merge (cross ::
              (tables.filter (fun nt => nt.2.columns.contains "date")).map Prod.snd)
              ["location_key", "date"])
            (table_merge
              ((tables.filter (fun nt => !(nt.2.columns.contains "date"))).map Prod.snd)
              ["location_key"])
            ["location_key"]) ) := h2.symm
      rw [hout]
      apply rowsSortedBy_drop_nan
      · intro c hc
        have hmem : c ∈ cross.columns := by
          rw [hcross_cols]
          exact hc
        have hm2 : c ∈ (table_merge (cross ::
            (tables.filter (fun nt => nt.2.columns.contains "date")).map Prod.snd)
            ["location_key", "date"]).columns := by
          unfold table_merge
          exact mem_columns_foldl_join _ c _ cross hmem
        simp only [table_sort_by, table_join]
        exact List.mem_append.mpr (Or.inl hm2)
      · exact table_sort_by_sorted _ _

def wIndexV2 : Table := ⟨["key"], [[("key", "AD")]]⟩

def wIndexV3 : Table := ⟨["location_key"], [[("location_key", "AD")]]⟩

def wDates : List String := ["2020-01-01"]

/-- Witness for C3 (amended) at concrete one-key inputs for all three
builders. -/
theorem main_table_sort_invariant_witness :
    ∃ o1 o2 o3,
      make_main_table [] [("index", wIndexV2)] wDates = some o1 ∧ linesSorted o1 ∧
      make_main_table_v3 [("index", wIndexV3)] wDates false = some o2 ∧ linesSorted o2 ∧
      make_main_table_sqlite [("index", wIndexV3)] wDates false = some o3 ∧
        rowsSortedBy ["location_key", "date"] o3 := by
  obtain ⟨o1, h1⟩ := Option.isSome_iff_exists.mp
    (show (make_main_table [] [("index", wIndexV2)] wDates).isSome = true by decide)
  obtain ⟨o2, h2⟩ := Option.isSome_iff_exists.mp
    (show (make_main_table_v3 [("index", wIndexV3)] wDates false).isSome = true by decide)
  obtain ⟨o3, h3⟩ := Option.isSome_iff_exists.mp
    (show (make_main_table_sqlite [("index", wIndexV3)] wDates false).isSome = true by decide)
  exact ⟨o1, o2, o3, h1, main_table_sort_invariant.1 _ _ _ _ h1,
    h2, main_table_sort_invariant.2.1 _ _ _ _ h2,
    h3, main_table_sort_invariant.2.2 _ _ _ _ h3⟩

/-! ## Strategy equivalence (claim C1) -/

/-- C1 counterexample input: the index holds keys `A` and `B` with a
static descriptive column `name`; the static topic table `aaa` (first in
glob order) has a row only for key `B`. -/
def c1Index : Table :=
  ⟨["location_key", "name"],
    [[("location_key", "A"), ("name", "a")], [("location_key", "B"), ("name", "b")]]⟩

def c1Static : Table := ⟨["location_key", "p"], [[("location_key", "B"), ("p", "1")]]⟩

def c1Tables : List (String × Table) := [("aaa", c1Static), ("index", c1Index)]

def c1Dates : List String := ["2020-01-01"]

/-- C1 counterexample: on this fixed input set the double-buffered builder
and the staged-merge builder produce different row sets.  The staged merge
uses `aaa` (the first non-dated table) as the base of the `_idx1`
relation, so key `A` never enters `_idx1` and its row loses the index's
`name` value, while the double-buffered builder joins the index directly
onto the full key-by-date cross product and keeps `name = a` for key `A`. -/
theorem strategy_equivalence_cex :
    (make_main_table_v3 c1Tables c1Dates false).isSome = true ∧
    (make_main_table_sqlite c1Tables c1Dates false).isSome = true ∧
    ¬ sameRowSet ((make_main_table_v3 c1Tables c1Dates false).getD ⟨[], []⟩)
        ((make_main_table_sqlite c1Tables c1Dates false).getD ⟨[], []⟩) := by
  refine ⟨by decide, by decide, by decide⟩

/-! ## Orchestrator (main_v2 / main_v3, publish.py lines 377-514)

The publish run's effect on the output directory is modelled as an event
trace: deletions of top-level prior entries, then file writes, each write
identified by its path segments relative to the output folder. -/

inductive FsEvent where
  | delete (path : List String)
  | write (path : List String)
deriving DecidableEq

theorem csv_stem_inj {a b : String} (h : a ++ ".csv" = b ++ ".csv") : a = b := by
  have hd := congrArg String.data h
  rw [String.data_append, String.data_append] at hd
  have hl := List.append_cancel_right hd
  cases a; cases b
  exact congrArg String.mk hl

/-- Does a file name start with a dot, as tested by
`item.name.startswith(".")`? -/
def startsWithDot (n : String) : Bool :=
  match n.data with
  | [] => false
  | c :: _ => c == '.'

/-- The output-folder wipe at the start of a publish run (publish.py lines
450-457 and 490-497): every prior top-level entry is removed, except
entries whose name starts with a dot, which the loop skips. -/
def wipeEvents (existing : List String) : List FsEvent :=
  (existing.filter (fun n => !(startsWithDot n))).map (fun n => FsEvent.delete [n])

/-- The tables produced by `publish_global_tables` (publish.py lines
411-433): each input table with its columns renamed through the adapter
and its rows sorted by `location_key` for the following breakout step.
The closing comment of the source function records that no global main
table is created here ("because it's too big to be useful"). -/
def publish_global_tables_out (adapter : String → Option String)
    (tables : List (String × Table)) : List (String × Table) :=
  tables.map (fun nt => (nt.1, table_sort_by ["location_key"] (table_rename adapter nt.2)))

/-- File writes of `publish_global_tables`: one `<folder>/<stem>.csv` per
input table. -/
def publish_global_tables_events (folder : String)
    (tables : List (String × Table)) : List FsEvent :=
  tables.map (fun nt => FsEvent.write [folder, nt.1 ++ ".csv"])

/-- Modelled from the spec: `table_breakout` (`lib/memory_efficient.py`,
spec 4.3: "Breakout ... splits each global table into one file per
location key, preserving row order"): the distinct values of the table's
`location_key` column. -/
def breakoutKeys (t : Table) : List String := (table_read_column t "location_key").dedup

/-- File writes of `publish_location_breakouts` (publish.py lines
377-390): one `<folder>/<key>/<stem>.csv` per distinct location key per
table. -/
def publish_location_breakouts_events (folder : String)
    (tables : List (String × Table)) : List FsEvent :=
  tables.flatMap (fun nt =>
    (breakoutKeys nt.2).map (fun k => FsEvent.write [folder, k, nt.1 ++ ".csv"]))

/-- File writes of `publish_location_aggregates` (publish.py lines
393-408): one `<folder>/<key>/main.csv` per requested location key (each
such key comes from the index column, so its breakout folder holds an
`index.csv` and the per-key `make_main_table_v3` run writes its output). -/
def publish_location_aggregates_events (folder : String) (keys : List String) :
    List FsEvent :=
  keys.map (fun k => FsEvent.write [folder, k, "main.csv"])

/-- Event trace of a `main_v3` publish run (publish.py lines 436-474):
wipe the output folder (dot entries skipped), write the renamed global
tables into `v3/`, break each table out per location key, then write one
aggregated `main.csv` per key of the published index's `location_key`
column.  The JSON conversion call is commented out in the source and
contributes no events.  When `v3/index.csv` is absent the key read
raises; `none` models that abort. -/
def main_v3_events (adapter : String → Option String) (existing : List String)
    (tables : List (String × Table)) : Option (List FsEvent) :=
  let outTables := publish_global_tables_out adapter tables
  (findTable outTables "index").map (fun indexT =>
    wipeEvents existing
    ++ publish_global_tables_events "v3" outTables
    ++ publish_location_breakouts_events "v3" outTables
    ++ publish_location_aggregates_events "v3" (table_read_column indexT "location_key"))

/-- Event trace of a `main_v2` publish run (publish.py lines 477-514):
wipe, copy every table as-is to `v2/<stem>.csv`, build the global main
table and write it to `v2/main.csv`.  The source then calls
`create_table_subsets` and `convert_tables_to_json` but discards the
returned generators without iterating them, so their bodies never run and
they write nothing.  `none` models the abort when `make_main_table` fails
(missing index table or missing `key` column). -/
def main_v2_events (excl : List String) (existing : List String)
    (tables : List (String × Table)) (dates : List String) : Option (List FsEvent) :=
  (make_main_table excl tables dates).map (fun _ =>
    wipeEvents existing
    ++ tables.map (fun nt => FsEvent.write ["v2", nt.1 ++ ".csv"])
    ++ [FsEvent.write ["v2", "main.csv"]])

/-- C8 counterexample: a prior entry named `".cache"` is never deleted by
the wipe loop (the source skips every entry whose name starts with a
dot), so the run does not clear the destination of all prior contents. -/
theorem wipe_clears_all_cex :
    (main_v3_events (fun _ => none) [".cache"] [("index", wIndexV3)]).isSome = true ∧
    FsEvent.delete [".cache"]
      ∉ (main_v3_events (fun _ => none) [".cache"] [("index", wIndexV3)]).getD [] := by
  exact ⟨by decide, by decide⟩

/-- C8 (amended): at the start of a `main_v3` publish run the orchestrator
deletes every prior top-level entry of the destination except entries
whose name starts with a dot, and all these deletions happen before any
write; a dot-named prior entry is never deleted at all. -/
theorem wipe_before_writes (adapter : String → Option String) (existing : List String)
    (tables : List (String × Table)) (tr : List FsEvent)
    (h : main_v3_events adapter existing tables = some tr) :
    ∃ ds ws, tr = ds ++ ws ∧
      (∀ e ∈ ds, ∃ p, e = FsEvent.delete p) ∧
      (∀ e ∈ ws, ∃ p, e = FsEvent.write p) ∧
      (∀ n ∈ existing, ¬ startsWithDot n = true → FsEvent.delete [n] ∈ ds) ∧
      (∀ n ∈ existing, startsWithDot n = true → FsEvent.delete [n] ∉ tr) := by
  unfold main_v3_events at h
  rcases Option.map_eq_some'.mp h with ⟨indexT, _, h2⟩
  refine ⟨wipeEvents existing,
    publish_global_tables_events "v3" (publish_global_tables_out adapter tables)
    ++ publish_location_breakouts_events "v3" (publish_global_tables_out adapter tables)
    ++ publish_location_aggregates_events "v3" (table_read_column indexT "location_key"),
    ?_, ?_, ?_, ?_, ?_⟩
  · rw [← h2]
    simp
  · intro e he
    obtain ⟨n, _, rfl⟩ := List.mem_map.mp he
    exact ⟨[n], rfl⟩
  · intro e he
    rcases List.mem_append.mp he with he | he
    · rcases List.mem_append.mp he with he | he
      · obtain ⟨nt, _, rfl⟩ := List.mem_map.mp he
        exact ⟨_, rfl⟩
      · obtain ⟨nt, _, he'⟩ := List.mem_flatMap.mp he
        obtain ⟨k, _, rfl⟩ := List.mem_map.mp he'
        exact ⟨_, rfl⟩
    · obtain ⟨k, _, rfl⟩ := List.mem_map.mp he
      exact ⟨_, rfl⟩
  · intro n hn hdot
    unfold wipeEvents
    exact List.mem_map.mpr ⟨n, List.mem_filter.mpr ⟨hn, by simpa using hdot⟩, rfl⟩
  · intro n hn hdot hcontra
    rw [← h2] at hcontra
    rcases List.mem_append.mp hcontra with hc | hc
    · rcases List.mem_append.mp hc with hc | hc
      · rcases List.mem_append.mp hc with hc | hc
        · obtain ⟨m, hm, hme⟩ := List.mem_map.mp hc
          have : m = n := by
            have := FsEvent.delete.inj hme
            simpa using this
          subst this
          have := (List.mem_filter.mp hm).2
          rw [hdot] at this
          simp at this
        · obtain ⟨nt, _, hme⟩ := List.mem_map.mp hc
          exact FsEvent.noConfusion hme
      · obtain ⟨nt, _, he'⟩ := List.mem_flatMap.mp hc
        obtain ⟨k, _, hme⟩ := List.mem_map.mp he'
        exact FsEvent.noConfusion hme
    · obtain ⟨k, _, hme⟩ := List.mem_map.mp hc
      exact FsEvent.noConfusion hme

/-- Witness for C8 (amended) at a concrete run with one dot entry and one
regular prior entry. -/
theorem wipe_before_writes_witness :
    ∃ tr, main_v3_events (fun _ => none) [".cache", "old.csv"] [("index", wIndexV3)]
        = some tr ∧
      ∃ ds ws, tr = ds ++ ws ∧ FsEvent.delete ["old.csv"] ∈ ds := by
  obtain ⟨tr, htr⟩ := Option.isSome_iff_exists.mp
    (show (main_v3_events (fun _ => none) [".cache", "old.csv"]
      [("index", wIndexV3)]).isSome = true by decide)
  obtain ⟨ds, ws, hsplit, _, _, hdel, _⟩ :=
    wipe_before_writes (fun _ => none) [".cache", "old.csv"] [("index", wIndexV3)] tr htr
  exact ⟨tr, htr, ds, ws, hsplit, hdel "old.csv" (by decide) (by decide)⟩

/-- C7 counterexample: a complete `main_v3` publish run (the live entry
point of publish.py) never writes a global `v3/main.csv`. -/
theorem global_main_table_cex :
    (main_v3_events (fun _ => none) [] [("index", wIndexV3)]).isSome = true ∧
    FsEvent.write ["v3", "main.csv"]
      ∉ (main_v3_events (fun _ => none) [] [("index", wIndexV3)]).getD [] := by
  exact ⟨by decide, by decide⟩

/-- C7 (amended): a `main_v3` publish run deliberately writes no global
`v3/main.csv` (the source comments that the global main table is omitted
as too big to be useful); it instead writes one aggregated
`v3/<key>/main.csv` per key of the published index, and the global
denormalized main table is written only by the `main_v2` publish path, as
`v2/main.csv`. -/
theorem global_main_table_location (adapter : String → Option String)
    (existing : List String) (tables : List (String × Table)) (dates : List String)
    (excl : List String) (indexT : Table)
    (hidx : findTable (publish_global_tables_out adapter tables) "index" = some indexT)
    (hnomain : "main" ∉ tables.map Prod.fst) :
    ∃ tr, main_v3_events adapter existing tables = some tr ∧
      FsEvent.write ["v3", "main.csv"] ∉ tr ∧
      (∀ k ∈ table_read_column indexT "location_key",
        FsEvent.write ["v3", k, "main.csv"] ∈ tr) ∧
      (∀ tr2, main_v2_events excl existing tables dates = some tr2 →
        FsEvent.write ["v2", "main.csv"] ∈ tr2) := by
  refine ⟨wipeEvents existing
    ++ publish_global_tables_events "v3" (publish_global_tables_out adapter tables)
    ++ publish_location_breakouts_events "v3" (publish_global_tables_out adapter tables)
    ++ publish_location_aggregates_events "v3" (table_read_column indexT "location_key"),
    ?_, ?_, ?_, ?_⟩
  · show Option.map
        (fun idxT =>
          wipeEvents existing
          ++ publish_global_tables_events "v3" (publish_global_tables_out adapter tables)
          ++ publish_location_breakouts_events "v3" (publish_global_tables_out adapter tables)
          ++ publish_location_aggregates_events "v3" (table_read_column idxT "location_key"))
        (findTable (publish_global_tables_out adapter tables) "index")
      = some (wipeEvents existing
          ++ publish_global_tables_events "v3" (publish_global_tables_out adapter tables)
          ++ publish_location_breakouts_events "v3" (publish_global_tables_out adapter tables)
          ++ publish_location_aggregates_events "v3" (table_read_column indexT "location_key"))
    rw [hidx]
    rfl
  · intro hcontra
    rcases List.mem_append.mp hcontra with hc | hc
    · rcases List.mem_append.mp hc with hc | hc
      · rcases List.mem_append.mp hc with hc | hc
        · obtain ⟨m, _, hme⟩ := List.mem_map.mp hc
          exact FsEvent.noConfusion hme
        · obtain ⟨nt, hnt, hme⟩ := List.mem_map.mp hc
          have hpath := FsEvent.write.inj hme
          have hstem : nt.1 = "main" := by
            apply csv_stem_inj
            have h3 := (List.cons.inj (List.cons.inj hpath).2).1
            exact h3.trans (by rfl)
          apply hnomain
          have hmemf : nt.1 ∈ (publish_global_tables_out adapter tables).map Prod.fst :=
            List.mem_map_of_mem Prod.fst hnt
          rw [hstem] at hmemf
          simpa [publish_global_tables_out, Function.comp] using hmemf
      · obtain ⟨nt, _, he'⟩ := List.mem_flatMap.mp hc
        obtain ⟨k, _, hme⟩ := List.mem_map.mp he'
        simp at hme
    · obtain ⟨k, _, hme⟩ := List.mem_map.mp hc
      simp at hme
  · intro k hk
    refine List.mem_append.mpr (Or.inr ?_)
    exact List.mem_map.mpr ⟨k, hk, rfl⟩
  · intro tr2 htr2
    unfold main_v2_events at htr2
    rcases Option.map_eq_some'.mp htr2 with ⟨m, _, h2⟩
    rw [← h2]
    simp

/-- Witness for C7 (amended) at a concrete one-key input. -/
theorem global_main_table_location_witness :
    ∃ tr, main_v3_events (fun _ => none) [] [("index", wIndexV3)] = some tr ∧
      FsEvent.write ["v3", "main.csv"] ∉ tr ∧
      FsEvent.write ["v3", "AD", "main.csv"] ∈ tr := by
  obtain ⟨tr, htr, hno, hkeys, _⟩ :=
    global_main_table_location (fun _ => none) [] [("index", wIndexV3)] wDates []
      wIndexV3 (by decide) (by decide)
  exact ⟨tr, htr, hno, hkeys "AD" (by decide)⟩

/-! ## Join semantics engine

Characterization of iterated left outer joins as a row-wise map, under the
data-model assumption (spec 1, 3) that every table is keyed: at most one
row per join-key value. -/

theorem option_or_assoc (a b c : Option String) : (a.or b).or c = a.or (b.or c) := by
  cases a <;> rfl

theorem rowGet_append (r1 r2 : Row) (c : String) :
    rowGet (r1 ++ r2) c = (rowGet r1 c).or (rowGet r2 c) := by
  unfold rowGet
  rw [List.find?_append]
  cases List.find? (fun p => p.1 == c) r1 <;> simp [Option.or]

/-- The per-row effect of one left outer join against `right`: extend the
row by the first matching right row, if any. -/
def joinExt (right : Table) (onCols : List String) (lr : Row) : Row :=
  match right.rows.find? (rowMatches onCols lr) with
  | some rr => lr ++ rr
  | none => lr

theorem find?_eq_head?_filter (p : α → Bool) : ∀ l : List α,
    l.find? p = (l.filter p).head? := by
  intro l
  induction l with
  | nil => rfl
  | cons a l ih =>
    by_cases h : p a = true
    · rw [List.find?_cons_of_pos _ h, List.filter_cons_of_pos h]
      rfl
    · rw [List.find?_cons_of_neg _ (by simp [h]), List.filter_cons_of_neg (by simp [h])]
      exact ih

theorem flatMap_eq_map_of_singleton {f : α → List β} {g : α → β} :
    ∀ l : List α, (∀ x ∈ l, f x = [g x]) → l.flatMap f = l.map g := by
  intro l
  induction l with
  | nil => intro _; rfl
  | cons a l ih =>
    intro h
    rw [List.flatMap_cons, h a (by simp), ih (fun x hx => h x (by simp [hx]))]
    rfl

/-- Projection of a row onto the join columns. -/
def projOn (onCols : List String) (r : Row) : List (Option String) :=
  onCols.map (fun c => rowGet r c)

theorem projOn_eq_of_rowMatches (onCols : List String) (lr r : Row)
    (h : rowMatches onCols lr r = true) : projOn onCols r = projOn onCols lr := by
  unfold projOn
  apply List.map_congr_left
  intro c hc
  have := List.all_eq_true.mp h c hc
  simpa using this

theorem filter_matches_length_le_one (onCols : List String) :
    ∀ (rows : List Row), ((rows.map (projOn onCols)).Nodup) →
      ∀ lr : Row, (rows.filter (rowMatches onCols lr)).length ≤ 1 := by
  intro rows
  induction rows with
  | nil => intro _ lr; simp
  | cons r rest ih =>
    intro hnd lr
    simp only [List.map_cons, List.nodup_cons] at hnd
    by_cases h : rowMatches onCols lr r = true
    · rw [List.filter_cons_of_pos h]
      have hrest : rest.filter (rowMatches onCols lr) = [] := by
        apply List.filter_eq_nil_iff.mpr
        intro x hx hmx
        have h1 : projOn onCols x = projOn onCols lr :=
          projOn_eq_of_rowMatches _ _ _ hmx
        have h2 : projOn onCols r = projOn onCols lr :=
          projOn_eq_of_rowMatches _ _ _ h
        apply hnd.1
        rw [h2, ← h1]
        exact List.mem_map_of_mem (projOn onCols) hx
      rw [hrest]
      simp
    · rw [List.filter_cons_of_neg (by simp [h])]
      exact ih hnd.2 lr

theorem table_join_rows_map (left right : Table) (onCols : List String)
    (hnd : (right.rows.map (projOn onCols)).Nodup) :
    (table_join left right onCols).rows = left.rows.map (joinExt right onCols) := by
  show left.rows.flatMap _ = _
  apply flatMap_eq_map_of_singleton
  intro lr _
  have hle := filter_matches_length_le_one onCols right.rows hnd lr
  cases hf : right.rows.filter (rowMatches onCols lr) with
  | nil =>
    simp only [hf]
    unfold joinExt
    rw [find?_eq_head?_filter, hf]
    rfl
  | cons rr rest =>
    have hrest : rest = [] := by
      rw [hf] at hle
      simpa using hle
    subst hrest
    simp only [hf]
    unfold joinExt
    rw [find?_eq_head?_filter, hf]
    rfl

/-- Chain of left-biased value choices, the column semantics of a sequence
of left outer joins. -/
def orChain : List (Option String) → Option String
  | [] => none
  | o :: rest => o.or (orChain rest)

theorem orChain_all_none : ∀ l, (∀ o ∈ l, o = none) → orChain l = none := by
  intro l
  induction l with
  | nil => intro _; rfl
  | cons o rest ih =>
    intro h
    show o.or (orChain rest) = none
    rw [h o (by simp), ih (fun x hx => h x (by simp [hx]))]
    rfl

theorem or_orChain_eq (E : Option String) : ∀ l,
    (∀ o ∈ l, o = none ∨ o = E) → E.or (orChain l) = E := by
  intro l
  induction l with
  | nil => intro _; cases E <;> rfl
  | cons o rest ih =>
    intro h
    cases hE : E with
    | some v => rfl
    | none =>
      have ho : o = none := by
        rcases h o (by simp) with h' | h'
        · exact h'
        · rw [h', hE]
      have hrest := ih (fun x hx => h x (by simp [hx]))
      rw [hE] at hrest
      show (none : Option String).or (o.or (orChain rest)) = none
      rw [ho]
      calc (none : Option String).or (Option.or none (orChain rest))
          = Option.or none (orChain rest) := rfl
        _ = none := hrest

theorem orChain_split (E : Option String) : ∀ l1 l2 : List (Option String),
    (∀ o ∈ l1, o = none ∨ o = E) → (∀ o ∈ l2, o = none ∨ o = E) →
    orChain (l1 ++ E :: l2) = E := by
  intro l1
  induction l1 with
  | nil =>
    intro l2 _ h2
    show E.or (orChain l2) = E
    exact or_orChain_eq E l2 h2
  | cons o l1 ih =>
    intro l2 h1 h2
    show o.or (orChain (l1 ++ E :: l2)) = E
    rw [ih l2 (fun x hx => h1 x (by simp [hx])) h2]
    rcases h1 o (by simp) with h' | h'
    · rw [h']; rfl
    · rw [h']; cases E <;> rfl

theorem joinExt_get (right : Table) (onCols : List String) (lr : Row) (c : String) :
    rowGet (joinExt right onCols lr) c
      = (rowGet lr c).or
          ((right.rows.find? (rowMatches onCols lr)).bind (fun rr => rowGet rr c)) := by
  unfold joinExt
  cases hf : right.rows.find? (rowMatches onCols lr) with
  | none => cases rowGet lr c <;> rfl
  | some rr => rw [rowGet_append]; rfl

theorem matches_all_congr : ∀ (onCols : List String) (lr lr' rr : Row),
    (∀ c ∈ onCols, rowGet lr c = rowGet lr' c) →
    rowMatches onCols lr rr = rowMatches onCols lr' rr := by
  intro onCols
  induction onCols with
  | nil => intro lr lr' rr _; rfl
  | cons c cols ih =>
    intro lr lr' rr h
    show (rowGet rr c == rowGet lr c && rowMatches cols lr rr)
        = (rowGet rr c == rowGet lr' c && rowMatches cols lr' rr)
    rw [h c (by simp), ih lr lr' rr (fun d hd => h d (by simp [hd]))]

/-- Iterated per-row join extensions: the row-wise semantics of a fold of
left outer joins over a list of right tables. -/
def extFold (colsOf : Table → List String) (ts : List Table) (r : Row) : Row :=
  ts.foldl (fun r u => joinExt u (colsOf u) r) r

theorem extFold_get (colsOf : Table → List String) :
    ∀ (ts : List Table) (r0 : Row),
      (∀ u ∈ ts, ∀ ccol ∈ colsOf u, (rowGet r0 ccol).isSome = true) →
      ∀ c, rowGet (extFold colsOf ts r0) c
        = (rowGet r0 c).or (orChain (ts.map (fun u =>
            (u.rows.find? (rowMatches (colsOf u) r0)).bind (fun rr => rowGet rr c)))) := by
  intro ts
  induction ts with
  | nil =>
    intro r0 _ c
    show rowGet r0 c = (rowGet r0 c).or none
    cases rowGet r0 c <;> rfl
  | cons u ts ih =>
    intro r0 hb c
    have hr1get : ∀ d, rowGet (joinExt u (colsOf u) r0) d
        = (rowGet r0 d).or
            ((u.rows.find? (rowMatches (colsOf u) r0)).bind (fun rr => rowGet rr d)) :=
      fun d => joinExt_get u (colsOf u) r0 d
    have hr1pres : ∀ d, (rowGet r0 d).isSome = true →
        rowGet (joinExt u (colsOf u) r0) d = rowGet r0 d := by
      intro d hd
      rw [hr1get d]
      cases hg : rowGet r0 d with
      | none => rw [hg] at hd; simp at hd
      | some w => rfl
    have hb1 : ∀ v ∈ ts, ∀ ccol ∈ colsOf v,
        (rowGet (joinExt u (colsOf u) r0) ccol).isSome = true := by
      intro v hv ccol hc
      rw [hr1pres ccol (hb v (by simp [hv]) ccol hc)]
      exact hb v (by simp [hv]) ccol hc
    have hpred : ∀ v ∈ ts, v.rows.find? (rowMatches (colsOf v) (joinExt u (colsOf u) r0))
        = v.rows.find? (rowMatches (colsOf v) r0) := by
      intro v hv
      have hcongr : rowMatches (colsOf v) (joinExt u (colsOf u) r0)
          = rowMatches (colsOf v) r0 := by
        funext rr
        exact matches_all_congr (colsOf v) _ _ rr
          (fun ccol hc => hr1pres ccol (hb v (by simp [hv]) ccol hc))
      rw [hcongr]
    show rowGet (extFold colsOf ts (joinExt u (colsOf u) r0)) c = _
    rw [ih (joinExt u (colsOf u) r0) hb1 c, hr1get c]
    have hentries : ts.map (fun v =>
        (v.rows.find? (rowMatches (colsOf v) (joinExt u (colsOf u) r0))).bind
          (fun rr => rowGet rr c))
        = ts.map (fun v =>
            (v.rows.find? (rowMatches (colsOf v) r0)).bind (fun rr => rowGet rr c)) := by
      apply List.map_congr_left
      intro v hv
      rw [hpred v hv]
    rw [hentries]
    rw [option_or_assoc]
    rfl

theorem extFold_get_pres (colsOf : Table → List String) (ts : List Table) (r0 : Row)
    (hb : ∀ u ∈ ts, ∀ ccol ∈ colsOf u, (rowGet r0 ccol).isSome = true)
    (c : String) (hc : (rowGet r0 c).isSome = true) :
    rowGet (extFold colsOf ts r0) c = rowGet r0 c := by
  rw [extFold_get colsOf ts r0 hb c]
  cases hg : rowGet r0 c with
  | none => rw [hg] at hc; simp at hc
  | some w => rfl

/-! ## Builder characterization -/

theorem foldl_skip_eq_filter (skip : String → Bool) (g : Table → Table → Table) :
    ∀ (tables : List (String × Table)) (base : Table),
      tables.foldl (fun acc nt => if skip nt.1 then acc else g acc nt.2) base
        = ((tables.filter (fun nt => !(skip nt.1))).map Prod.snd).foldl g base := by
  intro tables
  induction tables with
  | nil => intro base; rfl
  | cons nt rest ih =>
    intro base
    by_cases h : skip nt.1 = true
    · rw [List.foldl_cons, if_pos h, List.filter_cons_of_neg (by simp [h])]
      exact ih base
    · rw [List.foldl_cons, if_neg h, List.filter_cons_of_pos (by simp [h])]
      simp only [List.map_cons, List.foldl_cons]
      exact ih (g base nt.2)

theorem joinFold_rows_map (colsOf : Table → List String) :
    ∀ (ts : List Table) (base : Table),
      (∀ u ∈ ts, (u.rows.map (projOn (colsOf u))).Nodup) →
      (ts.foldl (fun acc u => table_join acc u (colsOf u)) base).rows
        = base.rows.map (extFold colsOf ts) := by
  intro ts
  induction ts with
  | nil =>
    intro base _
    have h0 : base.rows.map (extFold colsOf []) = base.rows.map (fun r => r) := rfl
    rw [h0, List.map_id_fun']
    rfl
  | cons u ts ih =>
    intro base h
    rw [List.foldl_cons]
    rw [ih (table_join base u (colsOf u)) (fun v hv => h v (by simp [hv]))]
    rw [table_join_rows_map base u (colsOf u) (h u (by simp))]
    rw [List.map_map]
    rfl

/-- Join-column chooser of the v3-schema builders (publish.py lines
229-233 and 291-294): join on `["location_key","date"]` for dated tables,
on `["location_key"]` otherwise. -/
def onColsV3 (t : Table) : List String :=
  if t.columns.contains "date" then ["location_key", "date"] else ["location_key"]

/-- Join-column chooser of the v2-schema builder (publish.py lines
153-157). -/
def onColsV2 (t : Table) : List String :=
  if t.columns.contains "date" then ["key", "date"] else ["key"]

/-- The rows of the key-by-date cross product table. -/
def crossRows (keys dates : List String) : List Row :=
  keys.flatMap (fun k => dates.map (fun d => [("location_key", k), ("date", d)]))

theorem cross_rows_eq (keys dates : List String) :
    (table_cross_product (singleColumnTable "location_key" keys)
      (singleColumnTable "date" dates)).rows = crossRows keys dates := by
  show (keys.map _).flatMap _ = _
  rw [List.flatMap_map]
  apply congrArg (List.flatMap keys)
  funext k
  show ((dates.map (fun v => [("date", v)])).map (fun rb => [("location_key", k)] ++ rb))
      = dates.map (fun d => [("location_key", k), ("date", d)])
  rw [List.map_map]
  rfl

theorem crossRow_get_lk (k d : String) :
    rowGet [("location_key", k), ("date", d)] "location_key" = some k := rfl

theorem crossRow_get_date (k d : String) :
    rowGet [("location_key", k), ("date", d)] "date" = some d := rfl

theorem mem_onColsV3 (t : Table) (c : String) (hc : c ∈ onColsV3 t) :
    c = "location_key" ∨ c = "date" := by
  unfold onColsV3 at hc
  by_cases h : t.columns.contains "date" = true
  · rw [if_pos h] at hc
    simpa using hc
  · rw [if_neg h] at hc
    simp at hc
    exact Or.inl hc

theorem make_main_table_v3_some (tables : List (String × Table)) (dates : List String)
    (indexT : Table) (hfind : findTable tables "index" = some indexT) :
    make_main_table_v3 tables dates false
      = some (table_sort (tables.foldl (fun acc nt =>
          if nt.1 == "main" then acc
          else table_join acc nt.2 (onColsV3 nt.2))
        (table_cross_product
          (singleColumnTable "location_key" (table_read_column indexT "location_key"))
          (singleColumnTable "date" dates)))) := by
  unfold make_main_table_v3 make_location_key_and_date_table
  rw [hfind]
  rfl

theorem make_main_table_v3_rows (tables : List (String × Table)) (dates : List String)
    (indexT : Table)
    (hfind : findTable tables "index" = some indexT)
    (huniq : ∀ nt ∈ tables, ((nt.2.rows.map (projOn (onColsV3 nt.2))).Nodup)) :
    ∃ out, make_main_table_v3 tables dates false = some out ∧
      out.rows.Perm
        ((crossRows (table_read_column indexT "location_key") dates).map
          (extFold onColsV3
            ((tables.filter (fun nt => !(nt.1 == "main"))).map Prod.snd))) := by
  refine ⟨_, make_main_table_v3_some tables dates indexT hfind, ?_⟩
  have h1 := foldl_skip_eq_filter (fun n => n == "main")
    (fun acc t => table_join acc t (onColsV3 t)) tables
    (table_cross_product
      (singleColumnTable "location_key" (table_read_column indexT "location_key"))
      (singleColumnTable "date" dates))
  have h2 := joinFold_rows_map onColsV3
    ((tables.filter (fun nt => !(nt.1 == "main"))).map Prod.snd)
    (table_cross_product
      (singleColumnTable "location_key" (table_read_column indexT "location_key"))
      (singleColumnTable "date" dates))
    (by
      intro u hu
      obtain ⟨nt, hnt, rfl⟩ := List.mem_map.mp hu
      exact huniq nt (List.mem_of_mem_filter hnt))
  refine List.Perm.trans (sortLe_perm _ _) ?_
  rw [h1, h2, cross_rows_eq]

theorem countP_congr_mem {p q : α → Bool} :
    ∀ l : List α, (∀ a ∈ l, p a = q a) → l.countP p = l.countP q := by
  intro l
  induction l with
  | nil => intro _; rfl
  | cons a l ih =>
    intro h
    rw [List.countP_cons, List.countP_cons, h a (by simp),
      ih (fun x hx => h x (by simp [hx]))]

theorem countP_crossRows (k d : String) (dates : List String) : ∀ keys : List String,
    (crossRows keys dates).countP (fun r =>
        rowGet r "location_key" == some k && rowGet r "date" == some d)
      = keys.count k * dates.count d := by
  intro keys
  induction keys with
  | nil => simp [crossRows]
  | cons k' keys ih =>
    have hcons : crossRows (k' :: keys) dates
        = (dates.map (fun d' => [("location_key", k'), ("date", d')]))
          ++ crossRows keys dates := by
      simp [crossRows]
    rw [hcons, List.countP_append, ih]
    have hbeq : ((k == k') : Bool) = ((k' == k) : Bool) := by
      by_cases h : k = k'
      · simp [h]
      · have h' : k' ≠ k := fun hc => h hc.symm
        simp [h, h']
    have hinner : (dates.map (fun d' => [("location_key", k'), ("date", d')])).countP
        (fun r => rowGet r "location_key" == some k && rowGet r "date" == some d)
        = (if (k' == k) = true then dates.count d else 0) := by
      rw [List.countP_map]
      by_cases hk : (k' == k) = true
      · rw [if_pos hk, List.count_eq_countP]
        apply countP_congr_mem
        intro d' _
        show (rowGet [("location_key", k'), ("date", d')] "location_key" == some k
            && rowGet [("location_key", k'), ("date", d')] "date" == some d) = (d' == d)
        rw [crossRow_get_lk, crossRow_get_date]
        rw [show ((some k' == some k) : Bool) = ((k' == k) : Bool) from rfl, hk]
        rw [show ((some d' == some d) : Bool) = ((d' == d) : Bool) from rfl, Bool.true_and]
      · rw [if_neg hk]
        have hzero : (dates.countP (fun _ => false)) = 0 := by simp
        rw [← hzero]
        apply countP_congr_mem
        intro d' _
        show (rowGet [("location_key", k'), ("date", d')] "location_key" == some k
            && rowGet [("location_key", k'), ("date", d')] "date" == some d) = false
        rw [crossRow_get_lk, crossRow_get_date]
        rw [show ((some k' == some k) : Bool) = ((k' == k) : Bool) from rfl]
        have hk' : (k' == k) = false := by simpa using hk
        rw [hk', Bool.false_and]
    rw [hinner, List.count_cons]
    by_cases hk : (k' == k) = true
    · rw [if_pos hk, if_pos hk]
      ring
    · rw [if_neg hk, if_neg hk]
      simp

/-- C2: the double-buffered builder's main table contains exactly one row
per `(location_key, date)` pair for every key of the index table and every
date of the date range, and no other rows: the count of rows bearing the
pair `(k, d)` is one exactly when `k` is an index key and `d` is in range,
and zero otherwise.  Hypotheses are the data model of spec 1/3: the index
is present, every table has at most one row per join-key value, index keys
and dates are duplicate-free. -/
theorem main_table_completeness (tables : List (String × Table)) (dates : List String)
    (indexT : Table)
    (hfind : findTable tables "index" = some indexT)
    (huniq : ∀ nt ∈ tables, ((nt.2.rows.map (projOn (onColsV3 nt.2))).Nodup))
    (hkeys : (table_read_column indexT "location_key").Nodup)
    (hdates : dates.Nodup) :
    ∃ out, make_main_table_v3 tables dates false = some out ∧
      ∀ k d, out.rows.countP (fun r =>
          rowGet r "location_key" == some k && rowGet r "date" == some d)
        = if k ∈ table_read_column indexT "location_key" ∧ d ∈ dates then 1 else 0 := by
  obtain ⟨out, hout, hperm⟩ := make_main_table_v3_rows tables dates indexT hfind huniq
  refine ⟨out, hout, ?_⟩
  intro k d
  rw [hperm.countP_eq, List.countP_map]
  have hcong : (crossRows (table_read_column indexT "location_key") dates).countP
      ((fun r => rowGet r "location_key" == some k && rowGet r "date" == some d) ∘
        extFold onColsV3 ((tables.filter (fun nt => !(nt.1 == "main"))).map Prod.snd))
      = (crossRows (table_read_column indexT "location_key") dates).countP
          (fun r => rowGet r "location_key" == some k && rowGet r "date" == some d) := by
    apply countP_congr_mem
    intro r hr
    obtain ⟨k', _, hr2⟩ := List.mem_flatMap.mp hr
    obtain ⟨d', _, rfl⟩ := List.mem_map.mp hr2
    have hb : ∀ u ∈ (tables.filter (fun nt => !(nt.1 == "main"))).map Prod.snd,
        ∀ ccol ∈ onColsV3 u,
        (rowGet [("location_key", k'), ("date", d')] ccol).isSome = true := by
      intro u _ ccol hc
      rcases mem_onColsV3 u ccol hc with rfl | rfl
      · rw [crossRow_get_lk]; rfl
      · rw [crossRow_get_date]; rfl
    show (rowGet (extFold onColsV3 _ [("location_key", k'), ("date", d')]) "location_key"
          == some k
        && rowGet (extFold onColsV3 _ [("location_key", k'), ("date", d')]) "date"
          == some d) = _
    rw [extFold_get_pres onColsV3 _ _ hb "location_key" (by rw [crossRow_get_lk]; rfl),
      extFold_get_pres onColsV3 _ _ hb "date" (by rw [crossRow_get_date]; rfl)]
  rw [hcong, countP_crossRows]
  by_cases hIn : k ∈ table_read_column indexT "location_key" ∧ d ∈ dates
  · rw [if_pos hIn, List.count_eq_one_of_mem hkeys hIn.1,
      List.count_eq_one_of_mem hdates hIn.2]
  · rw [if_neg hIn]
    by_cases h1 : k ∈ table_read_column indexT "location_key"
    · have h2 : d ∉ dates := fun hd2 => hIn ⟨h1, hd2⟩
      rw [List.count_eq_zero_of_not_mem h2, Nat.mul_zero]
    · rw [List.count_eq_zero_of_not_mem h1, Nat.zero_mul]

/-- Witness for C2 at a concrete one-key, one-date input. -/
theorem main_table_completeness_witness :
    ∃ out, make_main_table_v3 [("index", wIndexV3)] wDates false = some out ∧
      out.rows.countP (fun r =>
        rowGet r "location_key" == some "AD" && rowGet r "date" == some "2020-01-01")
      = 1 := by
  obtain ⟨out, hout, hcnt⟩ := main_table_completeness [("index", wIndexV3)] wDates
    wIndexV3 (by decide) (by decide) (by decide) (by decide)
  refine ⟨out, hout, ?_⟩
  have hp : ("AD" ∈ table_read_column wIndexV3 "location_key" ∧ "2020-01-01" ∈ wDates) := by
    decide
  have h := hcnt "AD" "2020-01-01"
  rw [if_pos hp] at h
  exact h

/-! ## Static broadcast (claim C5) -/

theorem mem_onColsV2 (t : Table) (c : String) (hc : c ∈ onColsV2 t) :
    c = "key" ∨ c = "date" := by
  unfold onColsV2 at hc
  by_cases h : t.columns.contains "date" = true
  · rw [if_pos h] at hc
    simpa using hc
  · rw [if_neg h] at hc
    simp at hc
    exact Or.inl hc

def crossRowsV2 (keys dates : List String) : List Row :=
  keys.flatMap (fun k => dates.map (fun d => [("key", k), ("date", d)]))

theorem cross_rows_v2_eq (keys dates : List String) :
    (table_cross_product (singleColumnTable "key" keys)
      (singleColumnTable "date" dates)).rows = crossRowsV2 keys dates := by
  show (keys.map _).flatMap _ = _
  rw [List.flatMap_map]
  apply congrArg (List.flatMap keys)
  funext k
  show ((dates.map (fun v => [("date", v)])).map (fun rb => [("key", k)] ++ rb))
      = dates.map (fun d => [("key", k), ("date", d)])
  rw [List.map_map]
  rfl

theorem crossRowV2_get_key (k d : String) :
    rowGet [("key", k), ("date", d)] "key" = some k := rfl

theorem crossRowV2_get_date (k d : String) :
    rowGet [("key", k), ("date", d)] "date" = some d := rfl

theorem crossRowV2_get_other (k d c : String) (h1 : c ≠ "key") (h2 : c ≠ "date") :
    rowGet [("key", k), ("date", d)] c = none := by
  rw [rowGet_cons, if_neg (by simpa using Ne.symm h1),
    rowGet_cons, if_neg (by simpa using Ne.symm h2)]
  rfl

theorem crossRow_get_other (k d c : String) (h1 : c ≠ "location_key") (h2 : c ≠ "date") :
    rowGet [("location_key", k), ("date", d)] c = none := by
  rw [rowGet_cons, if_neg (by simpa using Ne.symm h1),
    rowGet_cons, if_neg (by simpa using Ne.symm h2)]
  rfl

theorem findTable_mem (tables : List (String × Table)) (n : String) (t : Table)
    (h : findTable tables n = some t) : (n, t) ∈ tables := by
  unfold findTable at h
  rcases Option.map_eq_some'.mp h with ⟨nt, hfind, hsnd⟩
  have hmem := List.mem_of_find?_eq_some hfind
  have hcond := List.find?_some hfind
  obtain ⟨a, b⟩ := nt
  have h1 : a = n := by simpa using hcond
  have h2 : b = t := hsnd
  rw [← h1, ← h2]
  exact hmem

theorem nodup_fst_eq : ∀ (l : List (String × Table)),
    (l.map Prod.fst).Nodup →
    ∀ {a : String} {b1 b2 : Table}, (a, b1) ∈ l → (a, b2) ∈ l → b1 = b2 := by
  intro l
  induction l with
  | nil => intro _ a b1 b2 h1 _; simp at h1
  | cons nt rest ih =>
    intro hnd a b1 b2 h1 h2
    simp only [List.map_cons, List.nodup_cons] at hnd
    rcases List.mem_cons.mp h1 with he1 | he1
    · rcases List.mem_cons.mp h2 with he2 | he2
      · have heq : (a, b1) = (a, b2) := he1.trans he2.symm
        exact ((Prod.mk.injEq _ _ _ _).mp heq).2
      · exfalso
        apply hnd.1
        rw [show nt = (a, b1) from he1.symm]
        show a ∈ rest.map Prod.fst
        have := List.mem_map_of_mem Prod.fst he2
        simpa using this
    · rcases List.mem_cons.mp h2 with he2 | he2
      · exfalso
        apply hnd.1
        rw [show nt = (a, b2) from he2.symm]
        show a ∈ rest.map Prod.fst
        have := List.mem_map_of_mem Prod.fst he1
        simpa using this
      · exact ih hnd.2 he1 he2

theorem rowGet_none_of_names (rr : Row) (cols : List String) (c : String)
    (hWF : ∀ p ∈ rr, p.1 ∈ cols) (hc : c ∉ cols) : rowGet rr c = none := by
  unfold rowGet
  have hfnone : List.find? (fun p => p.1 == c) rr = none := by
    apply List.find?_eq_none.mpr
    intro p hp
    simp only [beq_iff_eq]
    intro hpc
    exact hc (hpc ▸ hWF p hp)
  rw [hfnone]
  rfl

theorem rowMatches_single (c0 : String) (r0 : Row) (v : Option String)
    (h : rowGet r0 c0 = v) :
    rowMatches [c0] r0 = fun rr => rowGet rr c0 == v := by
  funext rr
  unfold rowMatches
  simp [h]

theorem make_main_table_some (excl : List String) (tables : List (String × Table))
    (dates : List String) (indexT : Table)
    (hfind : findTable tables "index" = some indexT)
    (hkey : indexT.columns.contains "key" = true) :
    make_main_table excl tables dates
      = some (table_sort (tables.foldl (fun acc nt =>
          if excl.contains nt.1 then acc
          else table_join acc nt.2 (onColsV2 nt.2))
        (table_join (table_cross_product
            (singleColumnTable "key" (table_read_column indexT "key"))
            (singleColumnTable "date" dates))
          indexT ["key"]))) := by
  unfold make_main_table
  rw [hfind]
  have hb : ∀ (f : Table → Option Table), (some indexT).bind f = f indexT :=
    fun f => rfl
  rw [hb, if_pos hkey]
  rfl

/-- C5: in the direct streaming join builder's output, every column `c` of
a non-dated (static) table `S` carries, in every row, exactly the value
the static table holds for that row's key: `rowGet r c` equals the value
of `c` in `S`'s (unique) row for the key of `r`.  In particular the value
is identical across all dated rows of one key, it is absent exactly when
the static table has no value for that key, and no later dated outer join
nulls it out.  Hypotheses: index present with a `key` column, stems
duplicate-free, tables keyed (at most one row per join-key value), rows
bind only declared columns, and `c` is a column of `S` only (not any other
table, and not a join column). -/
theorem static_broadcast (excl : List String) (tables : List (String × Table))
    (dates : List String) (indexT : Table) (out : Table)
    (h : make_main_table excl tables dates = some out)
    (hfind : findTable tables "index" = some indexT)
    (hkey : indexT.columns.contains "key" = true)
    (hnames : (tables.map Prod.fst).Nodup)
    (huniq : ∀ nt ∈ tables, ((nt.2.rows.map (projOn (onColsV2 nt.2))).Nodup))
    (hidxuniq : (indexT.rows.map (projOn ["key"])).Nodup)
    (hWF : ∀ nt ∈ tables, ∀ row ∈ nt.2.rows, ∀ p ∈ row, p.1 ∈ nt.2.columns)
    (name : String) (S : Table) (hS : (name, S) ∈ tables)
    (hnotex : excl.contains name = false)
    (hstatic : S.columns.contains "date" = false)
    (c : String) (hcS : c ∈ S.columns) (hckey : c ≠ "key") (hcdate : c ≠ "date")
    (hown : ∀ nt ∈ tables, nt.1 ≠ name → c ∉ nt.2.columns) :
    ∀ r ∈ out.rows, ∃ k, rowGet r "key" = some k ∧
      rowGet r c = (S.rows.find? (fun rr => rowGet rr "key" == some k)).bind
        (fun rr => rowGet rr c) := by
  intro r hr
  rw [make_main_table_some excl tables dates indexT hfind hkey] at h
  have hout : out = table_sort (tables.foldl (fun acc nt =>
      if excl.contains nt.1 then acc
      else table_join acc nt.2 (onColsV2 nt.2))
    (table_join (table_cross_product
        (singleColumnTable "key" (table_read_column indexT "key"))
        (singleColumnTable "date" dates))
      indexT ["key"])) := Option.some.inj h.symm
  subst hout
  have hperm := sortLe_perm (fun r s =>
    strLe (renderRow (tables.foldl (fun acc nt =>
      if excl.contains nt.1 then acc
      else table_join acc nt.2 (onColsV2 nt.2))
    (table_join (table_cross_product
        (singleColumnTable "key" (table_read_column indexT "key"))
        (singleColumnTable "date" dates))
      indexT ["key"])).columns r)
      (renderRow (tables.foldl (fun acc nt =>
      if excl.contains nt.1 then acc
      else table_join acc nt.2 (onColsV2 nt.2))
    (table_join (table_cross_product
        (singleColumnTable "key" (table_read_column indexT "key"))
        (singleColumnTable "date" dates))
      indexT ["key"])).columns s))
  have hr2 : r ∈ (tables.foldl (fun acc nt =>
      if excl.contains nt.1 then acc
      else table_join acc nt.2 (onColsV2 nt.2))
    (table_join (table_cross_product
        (singleColumnTable "key" (table_read_column indexT "key"))
        (singleColumnTable "date" dates))
      indexT ["key"])).rows := (hperm _).mem_iff.mp hr
  rw [foldl_skip_eq_filter (fun n => excl.contains n)
    (fun acc t => table_join acc t (onColsV2 t))] at hr2
  rw [joinFold_rows_map onColsV2 _ _ (by
    intro u hu
    obtain ⟨nt, hnt, rfl⟩ := List.mem_map.mp hu
    exact huniq nt (List.mem_of_mem_filter hnt))] at hr2
  rw [table_join_rows_map _ _ _ hidxuniq, cross_rows_v2_eq, List.map_map] at hr2
  obtain ⟨cr, hcr, rfl⟩ := List.mem_map.mp hr2
  obtain ⟨k', _, hcr2⟩ := List.mem_flatMap.mp hcr
  obtain ⟨d', _, rfl⟩ := List.mem_map.mp hcr2
  -- the seed row
  have hr1key : rowGet (joinExt indexT ["key"] [("key", k'), ("date", d')]) "key"
      = some k' := by
    rw [joinExt_get, crossRowV2_get_key]
    rfl
  have hr1date : rowGet (joinExt indexT ["key"] [("key", k'), ("date", d')]) "date"
      = some d' := by
    rw [joinExt_get, crossRowV2_get_date]
    rfl
  have hb : ∀ u ∈ (tables.filter (fun nt => !(excl.contains nt.1))).map Prod.snd,
      ∀ ccol ∈ onColsV2 u,
      (rowGet (joinExt indexT ["key"] [("key", k'), ("date", d')]) ccol).isSome = true := by
    intro u _ ccol hc
    rcases mem_onColsV2 u ccol hc with rfl | rfl
    · rw [hr1key]; rfl
    · rw [hr1date]; rfl
  show ∃ k, _ ∧ _
  refine ⟨k', ?_, ?_⟩
  · have := extFold_get_pres onColsV2 _ _ hb "key" (by rw [hr1key]; rfl)
    show rowGet (extFold onColsV2 _ _) "key" = some k'
    rw [this, hr1key]
  · -- value of column c
    have hE : ∀ u ∈ (tables.filter (fun nt => !(excl.contains nt.1))).map Prod.snd,
        ((u.rows.find? (rowMatches (onColsV2 u)
          (joinExt indexT ["key"] [("key", k'), ("date", d')]))).bind
          (fun rr => rowGet rr c)) = none ∨
        ((u.rows.find? (rowMatches (onColsV2 u)
          (joinExt indexT ["key"] [("key", k'), ("date", d')]))).bind
          (fun rr => rowGet rr c))
        = (S.rows.find? (fun rr => rowGet rr "key" == some k')).bind
            (fun rr => rowGet rr c) := by
      intro u hu
      obtain ⟨nt, hnt, rfl⟩ := List.mem_map.mp hu
      have hntmem := List.mem_of_mem_filter hnt
      by_cases hname : nt.1 = name
      · right
        have hSnt : nt.2 = S := by
          have h1 : (name, nt.2) ∈ tables := by
            rw [← hname]
            exact hntmem
          exact nodup_fst_eq tables hnames h1 hS
        rw [hSnt]
        have hcols : onColsV2 S = ["key"] := by
          unfold onColsV2
          rw [hstatic]
          rfl
        rw [hcols, rowMatches_single "key" _ (some k') hr1key]
      · left
        have hcno : c ∉ nt.2.columns := hown nt hntmem hname
        cases hf : nt.2.rows.find? (rowMatches (onColsV2 nt.2)
            (joinExt indexT ["key"] [("key", k'), ("date", d')])) with
        | none => rfl
        | some rr =>
          have hrrmem := List.mem_of_find?_eq_some hf
          have : rowGet rr c = none :=
            rowGet_none_of_names rr nt.2.columns c
              (hWF nt hntmem rr hrrmem) hcno
          show rowGet rr c = none
          exact this
    have hr1c : rowGet (joinExt indexT ["key"] [("key", k'), ("date", d')]) c
        = (if name = "index" then
            (S.rows.find? (fun rr => rowGet rr "key" == some k')).bind
              (fun rr => rowGet rr c)
          else none) := by
      rw [joinExt_get, crossRowV2_get_other k' d' c hckey hcdate]
      by_cases hidx : name = "index"
      · rw [if_pos hidx]
        have hSidx : S = indexT := by
          apply nodup_fst_eq tables hnames (hidx ▸ hS) (findTable_mem tables "index" indexT hfind)
        rw [← hSidx, rowMatches_single "key" _ (some k') (crossRowV2_get_key k' d')]
        rfl
      · rw [if_neg hidx]
        have hidxmem := findTable_mem tables "index" indexT hfind
        have hcnoidx : c ∉ indexT.columns :=
          hown ("index", indexT) hidxmem (fun hcontr => hidx hcontr.symm)
        cases hf : indexT.rows.find? (rowMatches ["key"] [("key", k'), ("date", d')]) with
        | none => rfl
        | some rr =>
          have hrrmem := List.mem_of_find?_eq_some hf
          have : rowGet rr c = none :=
            rowGet_none_of_names rr indexT.columns c
              (hWF ("index", indexT) hidxmem rr hrrmem) hcnoidx
          show Option.or none (rowGet rr c) = none
          rw [this]
          rfl
    show rowGet (extFold onColsV2 _ _) c = _
    rw [extFold_get onColsV2 _ _ hb c, hr1c]
    by_cases hidx : name = "index"
    · rw [if_pos hidx]
      apply or_orChain_eq
      intro o ho
      obtain ⟨u, hu, rfl⟩ := List.mem_map.mp ho
      exact hE u hu
    · rw [if_neg hidx]
      have hmemS : S ∈ (tables.filter (fun nt => !(excl.contains nt.1))).map Prod.snd := by
        apply List.mem_map.mpr
        refine ⟨(name, S), ?_, rfl⟩
        apply List.mem_filter.mpr
        refine ⟨hS, ?_⟩
        show (!(excl.contains name)) = true
        rw [hnotex]
        rfl
      obtain ⟨l1, l2, hsplit⟩ := List.append_of_mem hmemS
      rw [hsplit, List.map_append, List.map_cons]
      have hmid : ((S.rows.find? (rowMatches (onColsV2 S)
          (joinExt indexT ["key"] [("key", k'), ("date", d')]))).bind
          (fun rr => rowGet rr c))
          = (S.rows.find? (fun rr => rowGet rr "key" == some k')).bind
              (fun rr => rowGet rr c) := by
        have hcols : onColsV2 S = ["key"] := by
          unfold onColsV2
          rw [hstatic]
          rfl
        rw [hcols, rowMatches_single "key" _ (some k') hr1key]
      rw [hmid]
      show Option.or none _ = _
      rw [show ∀ o : Option String, Option.or none o = o from fun o => rfl]
      apply orChain_split
      · intro o ho
        obtain ⟨u, hu, rfl⟩ := List.mem_map.mp ho
        apply hE u
        rw [hsplit]
        exact List.mem_append.mpr (Or.inl hu)
      · intro o ho
        obtain ⟨u, hu, rfl⟩ := List.mem_map.mp ho
        apply hE u
        rw [hsplit]
        exact List.mem_append.mpr (Or.inr (List.mem_cons.mpr (Or.inr hu)))

def wIdxV2b : Table := ⟨["key"], [[("key", "AD")], [("key", "US")]]⟩

def wPop : Table :=
  ⟨["key", "population"],
    [[("key", "AD"), ("population", "77000")],
     [("key", "US"), ("population", "330000000")]]⟩

def wTablesC5 : List (String × Table) := [("index", wIdxV2b), ("population", wPop)]

/-- Witness for C5 at a concrete two-key input with one static topic
table. -/
theorem static_broadcast_witness :
    ∃ out, make_main_table [] wTablesC5 wDates = some out ∧
      ∀ r ∈ out.rows, ∃ k, rowGet r "key" = some k ∧
        rowGet r "population"
          = (wPop.rows.find? (fun rr => rowGet rr "key" == some k)).bind
              (fun rr => rowGet rr "population") := by
  obtain ⟨out, hout⟩ := Option.isSome_iff_exists.mp
    (show (make_main_table [] wTablesC5 wDates).isSome = true by decide)
  exact ⟨out, hout,
    static_broadcast [] wTablesC5 wDates wIdxV2b out hout (by decide) (by decide)
      (by decide) (by decide) (by decide) (by decide) "population" wPop (by decide)
      (by decide) (by decide) "population" (by decide) (by decide) (by decide)
      (by decide)⟩

/-! ## Strategy equivalence, amended (claim C1) -/

theorem find?_congr_mem {p q : α → Bool} :
    ∀ l : List α, (∀ a ∈ l, p a = q a) → l.find? p = l.find? q := by
  intro l
  induction l with
  | nil => intro _; rfl
  | cons a l ih =>
    intro h
    by_cases hp : p a = true
    · rw [List.find?_cons_of_pos _ hp, List.find?_cons_of_pos _ ((h a (by simp)) ▸ hp)]
    · rw [List.find?_cons_of_neg _ hp,
        List.find?_cons_of_neg _ (by rw [← h a (by simp)]; exact hp),
        ih (fun x hx => h x (by simp [hx]))]

theorem orChain_entries (f : Table → Option String) (ts : List Table) (T0 : Table)
    (hmem : T0 ∈ ts)
    (hother : ∀ u ∈ ts, f u = none ∨ u = T0) :
    orChain (ts.map f) = f T0 := by
  obtain ⟨l1, l2, rfl⟩ := List.append_of_mem hmem
  rw [List.map_append, List.map_cons]
  apply orChain_split
  · intro o ho
    obtain ⟨u, hu, rfl⟩ := List.mem_map.mp ho
    rcases hother u (List.mem_append.mpr (Or.inl hu)) with h | h
    · exact Or.inl h
    · exact Or.inr (by rw [h])
  · intro o ho
    obtain ⟨u, hu, rfl⟩ := List.mem_map.mp ho
    rcases hother u (List.mem_append.mpr (Or.inr (List.mem_cons.mpr (Or.inr hu)))) with h | h
    · exact Or.inl h
    · exact Or.inr (by rw [h])

theorem orChain_entries_none (f : Table → Option String) (ts : List Table)
    (hall : ∀ u ∈ ts, f u = none) : orChain (ts.map f) = none := by
  apply orChain_all_none
  intro o ho
  obtain ⟨u, hu, rfl⟩ := List.mem_map.mp ho
  exact hall u hu

theorem entry_none (u : Table) (pred : Row → Bool) (c : String)
    (hWFu : ∀ row ∈ u.rows, ∀ p ∈ row, p.1 ∈ u.columns) (hcno : c ∉ u.columns) :
    (u.rows.find? pred).bind (fun rr => rowGet rr c) = none := by
  cases hf : u.rows.find? pred with
  | none => rfl
  | some rr =>
    show rowGet rr c = none
    exact rowGet_none_of_names rr u.columns c
      (hWFu rr (List.mem_of_find?_eq_some hf)) hcno

theorem mem_static_map (tables : List (String × Table)) (u : Table)
    (hu : u ∈ (tables.filter (fun nt => !(nt.2.columns.contains "date"))).map Prod.snd) :
    ∃ nt ∈ tables, nt.2 = u ∧ u.columns.contains "date" = false := by
  obtain ⟨nt, hnt, rfl⟩ := List.mem_map.mp hu
  refine ⟨nt, List.mem_of_mem_filter hnt, rfl, ?_⟩
  have h2 := List.of_mem_filter hnt
  simpa using h2

theorem mem_dated_map (tables : List (String × Table)) (u : Table)
    (hu : u ∈ (tables.filter (fun nt => nt.2.columns.contains "date")).map Prod.snd) :
    ∃ nt ∈ tables, nt.2 = u ∧ u.columns.contains "date" = true := by
  obtain ⟨nt, hnt, rfl⟩ := List.mem_map.mp hu
  obtain ⟨h1, h2⟩ := List.mem_filter.mp hnt
  exact ⟨nt, h1, rfl, h2⟩

theorem m1_bind_eq (S1 : Table) (restS : List Table) (k' c : String) (r0 : Row)
    (hr0 : rowGet r0 "location_key" = some k')
    (hbindS1 : ∀ row ∈ S1.rows, (rowGet row "location_key").isSome = true)
    (huniqR : ∀ u ∈ restS, ((u.rows.map (projOn ["location_key"])).Nodup)) :
    (((restS.foldl (fun acc u => table_join acc u ["location_key"]) S1).rows.find?
        (rowMatches ["location_key"] r0)).bind (fun rr => rowGet rr c))
      = ((S1.rows.find? (fun row1 => rowGet row1 "location_key" == some k')).bind
          (fun row1 => rowGet (extFold (fun _ => ["location_key"]) restS row1) c)) := by
  rw [joinFold_rows_map (fun _ => ["location_key"]) restS S1 huniqR]
  rw [List.find?_map]
  have hpred : ∀ row1 ∈ S1.rows,
      ((rowMatches ["location_key"] r0) ∘ (extFold (fun _ => ["location_key"]) restS)) row1
        = (rowGet row1 "location_key" == some k') := by
    intro row1 h1
    show rowMatches ["location_key"] r0 (extFold (fun _ => ["location_key"]) restS row1) = _
    have hpres : rowGet (extFold (fun _ => ["location_key"]) restS row1) "location_key"
        = rowGet row1 "location_key" := by
      apply extFold_get_pres
      · intro u _ ccol hc
        have : ccol = "location_key" := by simpa using hc
        rw [this]
        exact hbindS1 row1 h1
      · exact hbindS1 row1 h1
    unfold rowMatches
    rw [List.all_cons, List.all_nil, Bool.and_true, hpres, hr0]
  rw [find?_congr_mem S1.rows hpred]
  cases S1.rows.find? (fun row1 => rowGet row1 "location_key" == some k') <;> rfl

theorem v3_sqlite_value_eq
    (tables : List (String × Table)) (S1 : Table) (restS : List Table)
    (hsts : (tables.filter (fun nt => !(nt.2.columns.contains "date"))).map Prod.snd
      = S1 :: restS)
    (hWF : ∀ nt ∈ tables, ∀ row ∈ nt.2.rows, ∀ p ∈ row, p.1 ∈ nt.2.columns)
    (hbind : ∀ nt ∈ tables, ∀ row ∈ nt.2.rows, (rowGet row "location_key").isSome = true)
    (huniq : ∀ nt ∈ tables, ((nt.2.rows.map (projOn (onColsV3 nt.2))).Nodup))
    (hdisj : ∀ nt1 ∈ tables, ∀ nt2 ∈ tables, ∀ c : String, c ∈ nt1.2.columns →
      c ∈ nt2.2.columns → c = "location_key" ∨ c = "date" ∨ nt1.2 = nt2.2)
    (hcover : ∀ u ∈ (tables.filter (fun nt => !(nt.2.columns.contains "date"))).map Prod.snd,
      ∀ row ∈ u.rows, ∃ row1 ∈ S1.rows,
        rowGet row1 "location_key" = rowGet row "location_key")
    (k' d' c : String) :
    rowGet (extFold onColsV3 (tables.map Prod.snd) [("location_key", k'), ("date", d')]) c
      = rowGet (joinExt
          (table_merge
            ((tables.filter (fun nt => !(nt.2.columns.contains "date"))).map Prod.snd)
            ["location_key"])
          ["location_key"]
          (extFold (fun _ => ["location_key", "date"])
            ((tables.filter (fun nt => nt.2.columns.contains "date")).map Prod.snd)
            [("location_key", k'), ("date", d')])) c := by
  generalize hD : (tables.filter (fun nt => nt.2.columns.contains "date")).map Prod.snd = D
  rw [hsts]
  have hexD : ∀ u ∈ D, ∃ nt ∈ tables, nt.2 = u ∧ u.columns.contains "date" = true := by
    intro u hu
    rw [← hD] at hu
    exact mem_dated_map tables u hu
  have hexS : ∀ u ∈ S1 :: restS,
      ∃ nt ∈ tables, nt.2 = u ∧ u.columns.contains "date" = false := by
    intro u hu
    apply mem_static_map tables u
    rw [hsts]
    exact hu
  have hexAll : ∀ u ∈ tables.map Prod.snd, ∃ nt ∈ tables, nt.2 = u := by
    intro u hu
    obtain ⟨nt, hnt, heq⟩ := List.mem_map.mp hu
    exact ⟨nt, hnt, heq⟩
  have hS1ex := hexS S1 (List.mem_cons_self S1 restS)
  have hbV3 : ∀ u ∈ tables.map Prod.snd, ∀ ccol ∈ onColsV3 u,
      (rowGet [("location_key", k'), ("date", d')] ccol).isSome = true := by
    intro u _ ccol hc
    rcases mem_onColsV3 u ccol hc with rfl | rfl
    · rw [crossRow_get_lk]; rfl
    · rw [crossRow_get_date]; rfl
  have hbD : ∀ u ∈ D, ∀ ccol ∈ (["location_key", "date"] : List String),
      (rowGet [("location_key", k'), ("date", d')] ccol).isSome = true := by
    intro u _ ccol hc
    have hcc : ccol = "location_key" ∨ ccol = "date" := by simpa using hc
    rcases hcc with rfl | rfl
    · rw [crossRow_get_lk]; rfl
    · rw [crossRow_get_date]; rfl
  have hm2lk : rowGet (extFold (fun _ => ["location_key", "date"]) D
      [("location_key", k'), ("date", d')]) "location_key" = some k' := by
    rw [extFold_get_pres (fun _ => ["location_key", "date"]) D
      [("location_key", k'), ("date", d')] hbD "location_key" (by rw [crossRow_get_lk]; rfl)]
    exact crossRow_get_lk k' d'
  have hm2date : rowGet (extFold (fun _ => ["location_key", "date"]) D
      [("location_key", k'), ("date", d')]) "date" = some d' := by
    rw [extFold_get_pres (fun _ => ["location_key", "date"]) D
      [("location_key", k'), ("date", d')] hbD "date" (by rw [crossRow_get_date]; rfl)]
    exact crossRow_get_date k' d'
  have hbS1row : ∀ row ∈ S1.rows, (rowGet row "location_key").isSome = true := by
    obtain ⟨nt, hnt, heq, _⟩ := hS1ex
    intro row hrow
    apply hbind nt hnt
    rw [heq]
    exact hrow
  have huniqR : ∀ u ∈ restS, ((u.rows.map (projOn ["location_key"])).Nodup) := by
    intro u hu
    obtain ⟨nt, hnt, heq, hnd⟩ := hexS u (List.mem_cons_of_mem S1 hu)
    have h1 := huniq nt hnt
    rw [heq] at h1
    have hcols : onColsV3 u = ["location_key"] := by
      unfold onColsV3
      rw [hnd]
      rfl
    rw [hcols] at h1
    exact h1
  have hnone_or : ∀ o : Option String, Option.or none o = o := fun o => rfl
  have hor_none : ∀ o : Option String, Option.or o none = o := by
    intro o
    cases o <;> rfl
  have hM1 : table_merge (S1 :: restS) ["location_key"]
      = restS.foldl (fun acc u => table_join acc u ["location_key"]) S1 := rfl
  rw [extFold_get onColsV3 (tables.map Prod.snd) [("location_key", k'), ("date", d')] hbV3 c,
    joinExt_get, hM1,
    m1_bind_eq S1 restS k' c
      (extFold (fun _ => ["location_key", "date"]) D [("location_key", k'), ("date", d')])
      hm2lk hbS1row huniqR]
  by_cases hclk : c = "location_key"
  · subst hclk
    rw [crossRow_get_lk, hm2lk]
    rfl
  by_cases hcdate : c = "date"
  · subst hcdate
    rw [crossRow_get_date, hm2date]
    rfl
  rw [crossRow_get_other k' d' c hclk hcdate,
    extFold_get (fun _ => ["location_key", "date"]) D
      [("location_key", k'), ("date", d')] hbD c,
    crossRow_get_other k' d' c hclk hcdate, hnone_or, hnone_or]
  by_cases hP : ∃ nt ∈ tables, c ∈ nt.2.columns
  case neg =>
    push_neg at hP
    rw [orChain_entries_none
      (fun u => (u.rows.find? (rowMatches (onColsV3 u)
        [("location_key", k'), ("date", d')])).bind (fun rr => rowGet rr c))
      (tables.map Prod.snd)
      (by
        intro u hu
        obtain ⟨nt, hnt, heq⟩ := hexAll u hu
        exact entry_none u _ c (by rw [← heq]; exact hWF nt hnt)
          (by rw [← heq]; exact hP nt hnt))]
    rw [orChain_entries_none
      (fun u => (u.rows.find? (rowMatches ["location_key", "date"]
        [("location_key", k'), ("date", d')])).bind (fun rr => rowGet rr c))
      D
      (by
        intro u hu
        obtain ⟨nt, hnt, heq, _⟩ := hexD u hu
        exact entry_none u _ c (by rw [← heq]; exact hWF nt hnt)
          (by rw [← heq]; exact hP nt hnt))]
    rw [hnone_or]
    cases hS1f : S1.rows.find? (fun row1 => rowGet row1 "location_key" == some k') with
    | none => rfl
    | some row1 =>
      have hrow1 : row1 ∈ S1.rows := List.mem_of_find?_eq_some hS1f
      have hbR : ∀ u ∈ restS, ∀ ccol ∈ (["location_key"] : List String),
          (rowGet row1 ccol).isSome = true := by
        intro u _ ccol hc
        have hcc : ccol = "location_key" := by simpa using hc
        rw [hcc]
        exact hbS1row row1 hrow1
      show none = rowGet (extFold (fun _ => ["location_key"]) restS row1) c
      rw [extFold_get (fun _ => ["location_key"]) restS row1 hbR c]
      have hWFS1r : ∀ p ∈ row1, p.1 ∈ S1.columns := by
        obtain ⟨nt, hnt, heq, _⟩ := hS1ex
        have h1 := hWF nt hnt row1 (by rw [heq]; exact hrow1)
        rw [heq] at h1
        exact h1
      have hcnoS1 : c ∉ S1.columns := by
        obtain ⟨nt, hnt, heq, _⟩ := hS1ex
        rw [← heq]
        exact hP nt hnt
      rw [rowGet_none_of_names row1 S1.columns c hWFS1r hcnoS1, hnone_or]
      rw [orChain_entries_none
        (fun u => (u.rows.find? (rowMatches ["location_key"] row1)).bind
          (fun rr => rowGet rr c))
        restS
        (by
          intro u hu
          obtain ⟨nt, hnt, heq, _⟩ := hexS u (List.mem_cons_of_mem S1 hu)
          exact entry_none u _ c (by rw [← heq]; exact hWF nt hnt)
            (by rw [← heq]; exact hP nt hnt))]
  case pos =>
    obtain ⟨nt0, hnt0, hc0⟩ := hP
    have howner : ∀ nt ∈ tables, c ∈ nt.2.columns → nt.2 = nt0.2 := by
      intro nt hnt hcnt
      rcases hdisj nt hnt nt0 hnt0 c hcnt hc0 with h | h | h
      · exact absurd h hclk
      · exact absurd h hcdate
      · exact h
    by_cases hdT0 : nt0.2.columns.contains "date" = true
    · -- the owning table is dated
      have hcolsT0 : onColsV3 nt0.2 = ["location_key", "date"] := by
        unfold onColsV3
        rw [hdT0]
        rfl
      rw [orChain_entries
        (fun u => (u.rows.find? (rowMatches (onColsV3 u)
          [("location_key", k'), ("date", d')])).bind (fun rr => rowGet rr c))
        (tables.map Prod.snd) nt0.2 (List.mem_map_of_mem Prod.snd hnt0)
        (by
          intro u hu
          obtain ⟨nt, hnt, heq⟩ := hexAll u hu
          by_cases hcu : c ∈ u.columns
          · right
            rw [← heq]
            exact howner nt hnt (by rw [heq]; exact hcu)
          · left
            exact entry_none u _ c (by rw [← heq]; exact hWF nt hnt) hcu)]
      rw [hcolsT0]
      rw [orChain_entries
        (fun u => (u.rows.find? (rowMatches ["location_key", "date"]
          [("location_key", k'), ("date", d')])).bind (fun rr => rowGet rr c))
        D nt0.2
        (by
          rw [← hD]
          exact List.mem_map_of_mem Prod.snd (List.mem_filter.mpr ⟨hnt0, hdT0⟩))
        (by
          intro u hu
          obtain ⟨nt, hnt, heq, _⟩ := hexD u hu
          by_cases hcu : c ∈ u.columns
          · right
            rw [← heq]
            exact howner nt hnt (by rw [heq]; exact hcu)
          · left
            exact entry_none u _ c (by rw [← heq]; exact hWF nt hnt) hcu)]
      have hS1b : ((S1.rows.find? (fun row1 => rowGet row1 "location_key" == some k')).bind
          (fun row1 => rowGet (extFold (fun _ => ["location_key"]) restS row1) c)) = none := by
        cases hS1f : S1.rows.find? (fun row1 => rowGet row1 "location_key" == some k') with
        | none => rfl
        | some row1 =>
          have hrow1 : row1 ∈ S1.rows := List.mem_of_find?_eq_some hS1f
          have hbR : ∀ u ∈ restS, ∀ ccol ∈ (["location_key"] : List String),
              (rowGet row1 ccol).isSome = true := by
            intro u _ ccol hc
            have hcc : ccol = "location_key" := by simpa using hc
            rw [hcc]
            exact hbS1row row1 hrow1
          show rowGet (extFold (fun _ => ["location_key"]) restS row1) c = none
          rw [extFold_get (fun _ => ["location_key"]) restS row1 hbR c]
          have hcnoS1 : c ∉ S1.columns := by
            intro hcS1
            obtain ⟨nt, hnt, heq, hnd⟩ := hS1ex
            have h1 : nt.2 = nt0.2 := howner nt hnt (by rw [heq]; exact hcS1)
            rw [heq] at h1
            rw [← h1] at hdT0
            rw [hnd] at hdT0
            exact Bool.noConfusion hdT0
          have hWFS1r : ∀ p ∈ row1, p.1 ∈ S1.columns := by
            obtain ⟨nt, hnt, heq, _⟩ := hS1ex
            have h1 := hWF nt hnt row1 (by rw [heq]; exact hrow1)
            rw [heq] at h1
            exact h1
          rw [rowGet_none_of_names row1 S1.columns c hWFS1r hcnoS1, hnone_or]
          rw [orChain_entries_none
            (fun u => (u.rows.find? (rowMatches ["location_key"] row1)).bind
              (fun rr => rowGet rr c))
            restS
            (by
              intro u hu
              obtain ⟨nt, hnt, heq, hnd⟩ := hexS u (List.mem_cons_of_mem S1 hu)
              by_cases hcu : c ∈ u.columns
              · exfalso
                have h1 : nt.2 = nt0.2 := howner nt hnt (by rw [heq]; exact hcu)
                rw [heq] at h1
                rw [h1] at hnd
                rw [hnd] at hdT0
                exact Bool.noConfusion hdT0
              · exact entry_none u _ c (by rw [← heq]; exact hWF nt hnt) hcu)]
      rw [hS1b, hor_none]
    · -- the owning table is static
      have hdF : nt0.2.columns.contains "date" = false := by
        cases h : nt0.2.columns.contains "date"
        · rfl
        · exact absurd h hdT0
      have hcolsT0 : onColsV3 nt0.2 = ["location_key"] := by
        unfold onColsV3
        rw [hdF]
        rfl
      have hT0mem : nt0.2 ∈ S1 :: restS := by
        rw [← hsts]
        apply List.mem_map_of_mem Prod.snd
        apply List.mem_filter.mpr
        refine ⟨hnt0, ?_⟩
        rw [hdF]
        rfl
      rw [orChain_entries
        (fun u => (u.rows.find? (rowMatches (onColsV3 u)
          [("location_key", k'), ("date", d')])).bind (fun rr => rowGet rr c))
        (tables.map Prod.snd) nt0.2 (List.mem_map_of_mem Prod.snd hnt0)
        (by
          intro u hu
          obtain ⟨nt, hnt, heq⟩ := hexAll u hu
          by_cases hcu : c ∈ u.columns
          · right
            rw [← heq]
            exact howner nt hnt (by rw [heq]; exact hcu)
          · left
            exact entry_none u _ c (by rw [← heq]; exact hWF nt hnt) hcu)]
      rw [hcolsT0,
        rowMatches_single "location_key" [("location_key", k'), ("date", d')] (some k')
          (crossRow_get_lk k' d')]
      rw [orChain_entries_none
        (fun u => (u.rows.find? (rowMatches ["location_key", "date"]
          [("location_key", k'), ("date", d')])).bind (fun rr => rowGet rr c))
        D
        (by
          intro u hu
          obtain ⟨nt, hnt, heq, hdd⟩ := hexD u hu
          by_cases hcu : c ∈ u.columns
          · exfalso
            have h1 : nt.2 = nt0.2 := howner nt hnt (by rw [heq]; exact hcu)
            rw [heq] at h1
            rw [h1] at hdd
            rw [hdF] at hdd
            exact Bool.noConfusion hdd
          · exact entry_none u _ c (by rw [← heq]; exact hWF nt hnt) hcu)]
      rw [hnone_or]
      by_cases hT0S1 : nt0.2 = S1
      · rw [hT0S1]
        cases hS1f : S1.rows.find? (fun row1 => rowGet row1 "location_key" == some k') with
        | none => rfl
        | some row1 =>
          have hrow1 : row1 ∈ S1.rows := List.mem_of_find?_eq_some hS1f
          have hrow1lk : rowGet row1 "location_key" = some k' := by
            simpa using List.find?_some hS1f
          have hbR : ∀ u ∈ restS, ∀ ccol ∈ (["location_key"] : List String),
              (rowGet row1 ccol).isSome = true := by
            intro u _ ccol hc
            have hcc : ccol = "location_key" := by simpa using hc
            rw [hcc, hrow1lk]
            rfl
          show rowGet row1 c = rowGet (extFold (fun _ => ["location_key"]) restS row1) c
          rw [extFold_get (fun _ => ["location_key"]) restS row1 hbR c]
          symm
          apply or_orChain_eq
          intro o ho
          obtain ⟨u, hu, rfl⟩ := List.mem_map.mp ho
          obtain ⟨nt, hnt, heq, hnd⟩ := hexS u (List.mem_cons_of_mem S1 hu)
          by_cases hcu : c ∈ u.columns
          · right
            have h1 : nt.2 = nt0.2 := howner nt hnt (by rw [heq]; exact hcu)
            rw [heq] at h1
            rw [h1, hT0S1, rowMatches_single "location_key" row1 (some k') hrow1lk, hS1f]
            rfl
          · left
            exact entry_none u _ c (by rw [← heq]; exact hWF nt hnt) hcu
      · have hT0rest : nt0.2 ∈ restS := by
          rcases List.mem_cons.mp hT0mem with h | h
          · exact absurd h hT0S1
          · exact h
        have hcnoS1 : c ∉ S1.columns := by
          intro hcS1
          obtain ⟨nt, hnt, heq, _⟩ := hS1ex
          have h1 : nt.2 = nt0.2 := howner nt hnt (by rw [heq]; exact hcS1)
          rw [heq] at h1
          exact hT0S1 h1.symm
        cases hS1f : S1.rows.find? (fun row1 => rowGet row1 "location_key" == some k') with
        | none =>
          cases hf : nt0.2.rows.find? (fun rr => rowGet rr "location_key" == some k') with
          | none => rfl
          | some row =>
            exfalso
            have hrowm : row ∈ nt0.2.rows := List.mem_of_find?_eq_some hf
            have hrowlk : rowGet row "location_key" = some k' := by
              simpa using List.find?_some hf
            have hT0static : nt0.2 ∈
                (tables.filter (fun nt => !(nt.2.columns.contains "date"))).map Prod.snd := by
              rw [hsts]
              exact hT0mem
            obtain ⟨row1, hrow1m, hr1eq⟩ := hcover nt0.2 hT0static row hrowm
            apply List.find?_eq_none.mp hS1f row1 hrow1m
            show (rowGet row1 "location_key" == some k') = true
            rw [hr1eq, hrowlk]
            simp
        | some row1 =>
          have hrow1 : row1 ∈ S1.rows := List.mem_of_find?_eq_some hS1f
          have hrow1lk : rowGet row1 "location_key" = some k' := by
            simpa using List.find?_some hS1f
          have hbR : ∀ u ∈ restS, ∀ ccol ∈ (["location_key"] : List String),
              (rowGet row1 ccol).isSome = true := by
            intro u _ ccol hc
            have hcc : ccol = "location_key" := by simpa using hc
            rw [hcc, hrow1lk]
            rfl
          show _ = rowGet (extFold (fun _ => ["location_key"]) restS row1) c
          rw [extFold_get (fun _ => ["location_key"]) restS row1 hbR c]
          have hWFS1r : ∀ p ∈ row1, p.1 ∈ S1.columns := by
            obtain ⟨nt, hnt, heq, _⟩ := hS1ex
            have h1 := hWF nt hnt row1 (by rw [heq]; exact hrow1)
            rw [heq] at h1
            exact h1
          rw [rowGet_none_of_names row1 S1.columns c hWFS1r hcnoS1, hnone_or]
          rw [orChain_entries
            (fun u => (u.rows.find? (rowMatches ["location_key"] row1)).bind
              (fun rr => rowGet rr c))
            restS nt0.2 hT0rest
            (by
              intro u hu
              obtain ⟨nt, hnt, heq, hnd⟩ := hexS u (List.mem_cons_of_mem S1 hu)
              by_cases hcu : c ∈ u.columns
              · right
                have h1 : nt.2 = nt0.2 := howner nt hnt (by rw [heq]; exact hcu)
                rw [heq] at h1
                exact h1
              · left
                exact entry_none u _ c (by rw [← heq]; exact hWF nt hnt) hcu)]
          rw [rowMatches_single "location_key" row1 (some k') hrow1lk]

theorem mem_table_join_columns (L R : Table) (oc : List String) (c : String) :
    c ∈ (table_join L R oc).columns ↔ c ∈ L.columns ∨ c ∈ R.columns := by
  show c ∈ L.columns ++ R.columns.filter (fun x => !(L.columns.contains x)) ↔ _
  rw [List.mem_append, List.mem_filter]
  constructor
  · rintro (h | ⟨h, _⟩)
    · exact Or.inl h
    · exact Or.inr h
  · rintro (h | h)
    · exact Or.inl h
    · by_cases hL : c ∈ L.columns
      · exact Or.inl hL
      · exact Or.inr ⟨h, by simpa using hL⟩

theorem joinFold_columns_mem (colsOf : Table → List String) :
    ∀ (ts : List Table) (base : Table) (c : String),
      (c ∈ (ts.foldl (fun acc u => table_join acc u (colsOf u)) base).columns ↔
        c ∈ base.columns ∨ ∃ u ∈ ts, c ∈ u.columns) := by
  intro ts
  induction ts with
  | nil =>
    intro base c
    simp
  | cons u ts ih =>
    intro base c
    rw [List.foldl_cons, ih (table_join base u (colsOf u)) c, mem_table_join_columns]
    constructor
    · rintro ((h | h) | ⟨v, hv, hc⟩)
      · exact Or.inl h
      · exact Or.inr ⟨u, List.mem_cons_self u ts, h⟩
      · exact Or.inr ⟨v, List.mem_cons_of_mem u hv, hc⟩
    · rintro (h | ⟨v, hv, hc⟩)
      · exact Or.inl (Or.inl h)
      · rcases List.mem_cons.mp hv with rfl | hv'
        · exact Or.inl (Or.inr hc)
        · exact Or.inr ⟨v, hv', hc⟩

/-- C1 (amended): for a fixed set of v3-schema input tables, the
double-buffered streaming builder (`make_main_table_v3`) and the
relational staged-merge builder (`make_main_table_sqlite`) produce the
same row set up to column ordering.  Hypotheses capture the published
data model (spec 1/3): the index table is present, no table is named
`main`, all row bindings are declared columns and carry a location key,
each table has at most one row per join-key value, no data column is
shared by two distinct tables, and every location key occurring in a
non-dated table also occurs in the first non-dated table (`S1`, the base
of the sqlite static merge).  Without that last coverage condition the
strategies genuinely differ (see the counterexample). -/
theorem strategy_equivalence_amended
    (tables : List (String × Table)) (dates : List String) (indexT : Table)
    (hfind : findTable tables "index" = some indexT)
    (hnomain : ∀ nt ∈ tables, (nt.1 == "main") = false)
    (hWF : ∀ nt ∈ tables, ∀ row ∈ nt.2.rows, ∀ p ∈ row, p.1 ∈ nt.2.columns)
    (hbind : ∀ nt ∈ tables, ∀ row ∈ nt.2.rows, (rowGet row "location_key").isSome = true)
    (huniq : ∀ nt ∈ tables, ((nt.2.rows.map (projOn (onColsV3 nt.2))).Nodup))
    (hdisj : ∀ nt1 ∈ tables, ∀ nt2 ∈ tables, ∀ c : String, c ∈ nt1.2.columns →
      c ∈ nt2.2.columns → c = "location_key" ∨ c = "date" ∨ nt1.2 = nt2.2)
    (S1 : Table) (restS : List Table)
    (hsts : (tables.filter (fun nt => !(nt.2.columns.contains "date"))).map Prod.snd
      = S1 :: restS)
    (hcover : ∀ u ∈ (tables.filter (fun nt => !(nt.2.columns.contains "date"))).map Prod.snd,
      ∀ row ∈ u.rows, ∃ row1 ∈ S1.rows,
        rowGet row1 "location_key" = rowGet row "location_key") :
    ∃ t1 t2, make_main_table_v3 tables dates false = some t1 ∧
      make_main_table_sqlite tables dates false = some t2 ∧ sameRowSet t1 t2 := by
  have hfm2 : tables.filter (fun nt => !(nt.1 == "main")) = tables :=
    List.filter_eq_self.mpr (fun nt hnt => by rw [hnomain nt hnt]; rfl)
  have hexS : ∀ u ∈ S1 :: restS,
      ∃ nt ∈ tables, nt.2 = u ∧ u.columns.contains "date" = false := by
    intro u hu
    apply mem_static_map tables u
    rw [hsts]
    exact hu
  have hS1ex := hexS S1 (List.mem_cons_self S1 restS)
  have hbS1row : ∀ row ∈ S1.rows, (rowGet row "location_key").isSome = true := by
    obtain ⟨nt, hnt, heq, _⟩ := hS1ex
    intro row hrow
    apply hbind nt hnt
    rw [heq]
    exact hrow
  have huniqR : ∀ u ∈ restS, ((u.rows.map (projOn ["location_key"])).Nodup) := by
    intro u hu
    obtain ⟨nt, hnt, heq, hnd⟩ := hexS u (List.mem_cons_of_mem S1 hu)
    have h1 := huniq nt hnt
    rw [heq] at h1
    have hcols : onColsV3 u = ["location_key"] := by
      unfold onColsV3
      rw [hnd]
      rfl
    rw [hcols] at h1
    exact h1
  have hDuniq : ∀ u ∈ (tables.filter (fun nt => nt.2.columns.contains "date")).map Prod.snd,
      ((u.rows.map (projOn ["location_key", "date"])).Nodup) := by
    intro u hu
    obtain ⟨nt, hnt, heq, hdd⟩ := mem_dated_map tables u hu
    have h1 := huniq nt hnt
    rw [heq] at h1
    have hcols : onColsV3 u = ["location_key", "date"] := by
      unfold onColsV3
      rw [hdd]
      rfl
    rw [hcols] at h1
    exact h1
  have hm1rows : (table_merge
      ((tables.filter (fun nt => !(nt.2.columns.contains "date"))).map Prod.snd)
      ["location_key"]).rows
      = S1.rows.map (extFold (fun _ => ["location_key"]) restS) := by
    rw [hsts]
    exact joinFold_rows_map (fun _ => ["location_key"]) restS S1 huniqR
  have hm1nd : ((table_merge
      ((tables.filter (fun nt => !(nt.2.columns.contains "date"))).map Prod.snd)
      ["location_key"]).rows.map (projOn ["location_key"])).Nodup := by
    rw [hm1rows, List.map_map]
    have hfix : S1.rows.map
        ((projOn ["location_key"]) ∘ (extFold (fun _ => ["location_key"]) restS))
        = S1.rows.map (projOn ["location_key"]) := by
      apply List.map_congr_left
      intro row1 h1
      have hbR : ∀ u ∈ restS, ∀ ccol ∈ (["location_key"] : List String),
          (rowGet row1 ccol).isSome = true := by
        intro u _ ccol hc
        have hcc : ccol = "location_key" := by simpa using hc
        rw [hcc]
        exact hbS1row row1 h1
      show [rowGet (extFold (fun _ => ["location_key"]) restS row1) "location_key"]
          = [rowGet row1 "location_key"]
      rw [extFold_get_pres (fun _ => ["location_key"]) restS row1 hbR "location_key"
        (hbS1row row1 h1)]
    rw [hfix]
    obtain ⟨nt, hnt, heq, hnd⟩ := hS1ex
    have h1 := huniq nt hnt
    rw [heq] at h1
    have hcols : onColsV3 S1 = ["location_key"] := by
      unfold onColsV3
      rw [hnd]
      rfl
    rw [hcols] at h1
    exact h1
  have hsq : make_main_table_sqlite tables dates false
      = some (table_sort_by ["location_key", "date"]
          (table_join
            (table_merge
              ((table_cross_product
                  (singleColumnTable "location_key" (table_read_column indexT "location_key"))
                  (singleColumnTable "date" dates))
                :: (tables.filter (fun nt => nt.2.columns.contains "date")).map Prod.snd)
              ["location_key", "date"])
            (table_merge
              ((tables.filter (fun nt => !(nt.2.columns.contains "date"))).map Prod.snd)
              ["location_key"])
            ["location_key"])) := by
    unfold make_main_table_sqlite make_location_key_and_date_table
    rw [hfind]
    rfl
  obtain ⟨t1, ht1, hperm1⟩ := make_main_table_v3_rows tables dates indexT hfind huniq
  rw [hfm2] at hperm1
  have ht1eq : t1 = table_sort (tables.foldl (fun acc nt =>
      if nt.1 == "main" then acc
      else table_join acc nt.2 (onColsV3 nt.2))
    (table_cross_product
      (singleColumnTable "location_key" (table_read_column indexT "location_key"))
      (singleColumnTable "date" dates))) := by
    have h2 := make_main_table_v3_some tables dates indexT hfind
    rw [ht1] at h2
    exact Option.some.inj h2
  have hcc : (table_cross_product
      (singleColumnTable "location_key" (table_read_column indexT "location_key"))
      (singleColumnTable "date" dates)).columns = ["location_key", "date"] := rfl
  have ht1cols : ∀ c : String, c ∈ t1.columns ↔
      (c ∈ (["location_key", "date"] : List String) ∨ ∃ nt ∈ tables, c ∈ nt.2.columns) := by
    intro c
    rw [ht1eq]
    show c ∈ (tables.foldl (fun acc nt =>
      if nt.1 == "main" then acc
      else table_join acc nt.2 (onColsV3 nt.2))
      (table_cross_product
        (singleColumnTable "location_key" (table_read_column indexT "location_key"))
        (singleColumnTable "date" dates))).columns ↔ _
    rw [foldl_skip_eq_filter (fun n => n == "main")
      (fun acc t => table_join acc t (onColsV3 t)) tables, hfm2,
      joinFold_columns_mem, hcc]
    constructor
    · rintro (h | ⟨u, hu, hc⟩)
      · exact Or.inl h
      · obtain ⟨nt, hnt, heq⟩ := List.mem_map.mp hu
        exact Or.inr ⟨nt, hnt, by rw [heq]; exact hc⟩
    · rintro (h | ⟨nt, hnt, hc⟩)
      · exact Or.inl h
      · exact Or.inr ⟨nt.2, List.mem_map_of_mem Prod.snd hnt, hc⟩
  have ht2cols : ∀ c : String, c ∈ (table_sort_by ["location_key", "date"]
          (table_join
            (table_merge
              ((table_cross_product
                  (singleColumnTable "location_key" (table_read_column indexT "location_key"))
                  (singleColumnTable "date" dates))
                :: (tables.filter (fun nt => nt.2.columns.contains "date")).map Prod.snd)
              ["location_key", "date"])
            (table_merge
              ((tables.filter (fun nt => !(nt.2.columns.contains "date"))).map Prod.snd)
              ["location_key"])
            ["location_key"])).columns ↔
      (c ∈ (["location_key", "date"] : List String) ∨ ∃ nt ∈ tables, c ∈ nt.2.columns) := by
    intro c
    show c ∈ (table_join
        (table_merge
          ((table_cross_product
              (singleColumnTable "location_key" (table_read_column indexT "location_key"))
              (singleColumnTable "date" dates))
            :: (tables.filter (fun nt => nt.2.columns.contains "date")).map Prod.snd)
          ["location_key", "date"])
        (table_merge
          ((tables.filter (fun nt => !(nt.2.columns.contains "date"))).map Prod.snd)
          ["location_key"])
        ["location_key"]).columns ↔ _
    rw [mem_table_join_columns]
    have hm2c : c ∈ (table_merge
        ((table_cross_product
            (singleColumnTable "location_key" (table_read_column indexT "location_key"))
            (singleColumnTable "date" dates))
          :: (tables.filter (fun nt => nt.2.columns.contains "date")).map Prod.snd)
        ["location_key", "date"]).columns ↔
        (c ∈ (table_cross_product
            (singleColumnTable "location_key" (table_read_column indexT "location_key"))
            (singleColumnTable "date" dates)).columns ∨
          ∃ u ∈ (tables.filter (fun nt => nt.2.columns.contains "date")).map Prod.snd,
            c ∈ u.columns) := by
      show c ∈ (((tables.filter (fun nt => nt.2.columns.contains "date")).map Prod.snd).foldl
          (fun acc u => table_join acc u ["location_key", "date"])
          (table_cross_product
            (singleColumnTable "location_key" (table_read_column indexT "location_key"))
            (singleColumnTable "date" dates))).columns ↔ _
      exact joinFold_columns_mem (fun _ => ["location_key", "date"])
        ((tables.filter (fun nt => nt.2.columns.contains "date")).map Prod.snd)
        (table_cross_product
          (singleColumnTable "location_key" (table_read_column indexT "location_key"))
          (singleColumnTable "date" dates)) c
    have hm1c : c ∈ (table_merge
        ((tables.filter (fun nt => !(nt.2.columns.contains "date"))).map Prod.snd)
        ["location_key"]).columns ↔
        (c ∈ S1.columns ∨ ∃ u ∈ restS, c ∈ u.columns) := by
      rw [hsts]
      exact joinFold_columns_mem (fun _ => ["location_key"]) restS S1 c
    rw [hm2c, hm1c, hcc]
    constructor
    · rintro ((h | ⟨u, hu, hc2⟩) | h2)
      · exact Or.inl h
      · obtain ⟨nt, hnt, heq, _⟩ := mem_dated_map tables u hu
        exact Or.inr ⟨nt, hnt, by rw [heq]; exact hc2⟩
      · have hgot : ∃ u ∈ S1 :: restS, c ∈ u.columns := by
          rcases h2 with h | ⟨u, hu, hc2⟩
          · exact ⟨S1, List.mem_cons_self S1 restS, h⟩
          · exact ⟨u, List.mem_cons_of_mem S1 hu, hc2⟩
        obtain ⟨u, hu, hc2⟩ := hgot
        obtain ⟨nt, hnt, heq, _⟩ := hexS u hu
        exact Or.inr ⟨nt, hnt, by rw [heq]; exact hc2⟩
    · rintro (h | ⟨nt, hnt, hc2⟩)
      · exact Or.inl (Or.inl h)
      · by_cases hd : nt.2.columns.contains "date" = true
        · refine Or.inl (Or.inr ⟨nt.2, ?_, hc2⟩)
          exact List.mem_map_of_mem Prod.snd (List.mem_filter.mpr ⟨hnt, hd⟩)
        · have hdF : nt.2.columns.contains "date" = false := by
            cases hb2 : nt.2.columns.contains "date"
            · rfl
            · exact absurd hb2 hd
          have hmem : nt.2 ∈ S1 :: restS := by
            rw [← hsts]
            apply List.mem_map_of_mem Prod.snd
            apply List.mem_filter.mpr
            refine ⟨hnt, ?_⟩
            rw [hdF]
            rfl
          right
          rcases List.mem_cons.mp hmem with heq | hmem'
          · left
            rw [← heq]
            exact hc2
          · right
            exact ⟨nt.2, hmem', hc2⟩
  refine ⟨t1, _, ht1, hsq, ?_, ?_⟩
  · apply Finset.ext
    intro a
    rw [List.mem_toFinset, List.mem_toFinset, ht1cols a, ht2cols a]
  · apply Multiset.coe_eq_coe.mpr
    have hjoin : (table_join
        (table_merge
          ((table_cross_product
              (singleColumnTable "location_key" (table_read_column indexT "location_key"))
              (singleColumnTable "date" dates))
            :: (tables.filter (fun nt => nt.2.columns.contains "date")).map Prod.snd)
          ["location_key", "date"])
        (table_merge
          ((tables.filter (fun nt => !(nt.2.columns.contains "date"))).map Prod.snd)
          ["location_key"])
        ["location_key"]).rows
        = (crossRows (table_read_column indexT "location_key") dates).map
            (fun cr => joinExt
              (table_merge
                ((tables.filter (fun nt => !(nt.2.columns.contains "date"))).map Prod.snd)
                ["location_key"])
              ["location_key"]
              (extFold (fun _ => ["location_key", "date"])
                ((tables.filter (fun nt => nt.2.columns.contains "date")).map Prod.snd)
                cr)) := by
      rw [table_join_rows_map _ _ _ hm1nd]
      have hm2rows : (table_merge
          ((table_cross_product
              (singleColumnTable "location_key" (table_read_column indexT "location_key"))
              (singleColumnTable "date" dates))
            :: (tables.filter (fun nt => nt.2.columns.contains "date")).map Prod.snd)
          ["location_key", "date"]).rows
          = (crossRows (table_read_column indexT "location_key") dates).map
              (extFold (fun _ => ["location_key", "date"])
                ((tables.filter (fun nt => nt.2.columns.contains "date")).map Prod.snd)) := by
        have h1 := joinFold_rows_map (fun _ => ["location_key", "date"])
          ((tables.filter (fun nt => nt.2.columns.contains "date")).map Prod.snd)
          (table_cross_product
            (singleColumnTable "location_key" (table_read_column indexT "location_key"))
            (singleColumnTable "date" dates)) hDuniq
        rw [cross_rows_eq] at h1
        exact h1
      rw [hm2rows, List.map_map]
      rfl
    have hrows2 : (table_sort_by ["location_key", "date"]
        (table_join
          (table_merge
            ((table_cross_product
                (singleColumnTable "location_key" (table_read_column indexT "location_key"))
                (singleColumnTable "date" dates))
              :: (tables.filter (fun nt => nt.2.columns.contains "date")).map Prod.snd)
            ["location_key", "date"])
          (table_merge
            ((tables.filter (fun nt => !(nt.2.columns.contains "date"))).map Prod.snd)
            ["location_key"])
          ["location_key"])).rows.Perm
        ((crossRows (table_read_column indexT "location_key") dates).map
          (fun cr => joinExt
            (table_merge
              ((tables.filter (fun nt => !(nt.2.columns.contains "date"))).map Prod.snd)
              ["location_key"])
            ["location_key"]
            (extFold (fun _ => ["location_key", "date"])
              ((tables.filter (fun nt => nt.2.columns.contains "date")).map Prod.snd)
              cr))) := by
      rw [show (table_sort_by ["location_key", "date"]
        (table_join
          (table_merge
            ((table_cross_product
                (singleColumnTable "location_key" (table_read_column indexT "location_key"))
                (singleColumnTable "date" dates))
              :: (tables.filter (fun nt => nt.2.columns.contains "date")).map Prod.snd)
            ["location_key", "date"])
          (table_merge
            ((tables.filter (fun nt => !(nt.2.columns.contains "date"))).map Prod.snd)
            ["location_key"])
          ["location_key"])).rows = sortLe (colsLe ["location_key", "date"])
          (table_join
            (table_merge
              ((table_cross_product
                  (singleColumnTable "location_key" (table_read_column indexT "location_key"))
                  (singleColumnTable "date" dates))
                :: (tables.filter (fun nt => nt.2.columns.contains "date")).map Prod.snd)
              ["location_key", "date"])
            (table_merge
              ((tables.filter (fun nt => !(nt.2.columns.contains "date"))).map Prod.snd)
              ["location_key"])
            ["location_key"]).rows from rfl]
      rw [hjoin]
      exact sortLe_perm _ _
    have hA := hperm1.map (normRow (t1.columns ++ (table_sort_by ["location_key", "date"]
        (table_join
          (table_merge
            ((table_cross_product
                (singleColumnTable "location_key" (table_read_column indexT "location_key"))
                (singleColumnTable "date" dates))
              :: (tables.filter (fun nt => nt.2.columns.contains "date")).map Prod.snd)
            ["location_key", "date"])
          (table_merge
            ((tables.filter (fun nt => !(nt.2.columns.contains "date"))).map Prod.snd)
            ["location_key"])
          ["location_key"])).columns))
    have hB := hrows2.map (normRow (t1.columns ++ (table_sort_by ["location_key", "date"]
        (table_join
          (table_merge
            ((table_cross_product
                (singleColumnTable "location_key" (table_read_column indexT "location_key"))
                (singleColumnTable "date" dates))
              :: (tables.filter (fun nt => nt.2.columns.contains "date")).map Prod.snd)
            ["location_key", "date"])
          (table_merge
            ((tables.filter (fun nt => !(nt.2.columns.contains "date"))).map Prod.snd)
            ["location_key"])
          ["location_key"])).columns))
    have h3 : ((crossRows (table_read_column indexT "location_key") dates).map
        (extFold onColsV3 (tables.map Prod.snd))).map
          (normRow (t1.columns ++ (table_sort_by ["location_key", "date"]
            (table_join
              (table_merge
                ((table_cross_product
                    (singleColumnTable "location_key"
                      (table_read_column indexT "location_key"))
                    (singleColumnTable "date" dates))
                  :: (tables.filter (fun nt => nt.2.columns.contains "date")).map Prod.snd)
                ["location_key", "date"])
              (table_merge
                ((tables.filter (fun nt => !(nt.2.columns.contains "date"))).map Prod.snd)
                ["location_key"])
              ["location_key"])).columns))
        = ((crossRows (table_read_column indexT "location_key") dates).map
            (fun cr => joinExt
              (table_merge
                ((tables.filter (fun nt => !(nt.2.columns.contains "date"))).map Prod.snd)
                ["location_key"])
              ["location_key"]
              (extFold (fun _ => ["location_key", "date"])
                ((tables.filter (fun nt => nt.2.columns.contains "date")).map Prod.snd)
                cr))).map
          (normRow (t1.columns ++ (table_sort_by ["location_key", "date"]
            (table_join
              (table_merge
                ((table_cross_product
                    (singleColumnTable "location_key"
                      (table_read_column indexT "location_key"))
                    (singleColumnTable "date" dates))
                  :: (tables.filter (fun nt => nt.2.columns.contains "date")).map Prod.snd)
                ["location_key", "date"])
              (table_merge
                ((tables.filter (fun nt => !(nt.2.columns.contains "date"))).map Prod.snd)
                ["location_key"])
              ["location_key"])).columns)) := by
      rw [List.map_map, List.map_map]
      apply List.map_congr_left
      intro cr hcr
      obtain ⟨k', _, hcr2⟩ := List.mem_flatMap.mp hcr
      obtain ⟨d', _, rfl⟩ := List.mem_map.mp hcr2
      show normRow _ (extFold onColsV3 (tables.map Prod.snd)
          [("location_key", k'), ("date", d')]) = normRow _ _
      unfold normRow
      apply List.map_congr_left
      intro c _
      exact v3_sqlite_value_eq tables S1 restS hsts hWF hbind huniq hdisj hcover k' d' c
    have h4 := h3 ▸ hA
    exact h4.trans hB.symm

def wEpiC1A : Table :=
  ⟨["location_key", "date", "cases"],
    [[("location_key", "AD"), ("date", "2020-01-01"), ("cases", "5")]]⟩

def wIdxC1A : Table := ⟨["location_key"], [[("location_key", "AD")]]⟩

def wTablesC1A : List (String × Table) := [("epidemiology", wEpiC1A), ("index", wIdxC1A)]

/-- Witness for the amended C1 at a concrete one-key input with one dated
and one static table. -/
theorem strategy_equivalence_amended_witness :
    ∃ t1 t2, make_main_table_v3 wTablesC1A wDates false = some t1 ∧
      make_main_table_sqlite wTablesC1A wDates false = some t2 ∧ sameRowSet t1 t2 :=
  strategy_equivalence_amended wTablesC1A wDates wIdxC1A (by decide) (by decide)
    (by decide) (by decide) (by decide) (by decide) wIdxC1A [] (by decide) (by decide)
